import Mathlib

/-!
Verification of the graph / shortest-path / search toolkit
(Graph, Queue, Stack, MinHeap, LinkedList, DFS, BFS, Dijkstra)
of the labaSolvd-Nodejs repository, as a shallow embedding in Lean.

Every definition is translated from the TypeScript source:
JavaScript arrays become `List`, `Map` becomes an association list,
`Set` becomes a duplicate-free list, machine numbers become `Int`
(the repository only ever uses integral weights), `null`/`undefined`
results become `Option`, and `Infinity` becomes a dedicated
two-constructor distance type.  While loops become fuel-based or
well-founded recursion.
-/

namespace Spec2Proof

/-! ## Comparator model

The repository parameterises MinHeap and MinMaxStack by a JS
comparison function `(a, b) => number` with the documented contract:
negative means `a` before `b`, zero means equal, positive means `a`
after `b`.  We model it as `cmp : α → α → Int`.  `LawfulCmp` packages
the facts that hold of every comparator induced by a total order
(such as the numeric comparator `(a, b) => a - b`). -/

abbrev cmpLe {α : Type*} (cmp : α → α → Int) (a b : α) : Prop := cmp a b ≤ 0

/-- The properties of a comparison function that is induced by a total
order: sign antisymmetry and transitivity of the reflexive order. -/
structure LawfulCmp {α : Type*} (cmp : α → α → Int) : Prop where
  asym : ∀ a b, 0 < cmp a b ↔ cmp b a < 0
  le_trans : ∀ a b c, cmp a b ≤ 0 → cmp b c ≤ 0 → cmp a c ≤ 0

/-- The numeric comparator `(a, b) => a - b` used throughout the
repository examples. -/
def numCmp (a b : Int) : Int := a - b

/-! ## MinHeap (src/unnamed/part_000, `MinHeap.ts`)

The internal array `#heap` is a `List α`; JS index accesses
`this.#heap[i]` become `l.getD i default` (JS reads of an
out-of-range index yield `undefined`; the code only ever compares
in-range elements, which the lemmas below confirm). -/

namespace MinHeap

/-- JS `parent(index) = Math.floor((index - 1) / 2)`.  With `Nat`
subtraction `parent 0 = 0` whereas JS yields `-1`, but every use of
`parent` in the source is guarded by `index !== 0`. -/
def parent (index : ℕ) : ℕ := (index - 1) / 2

/-- JS `leftChild(index) = 2 * index + 1`. -/
def leftChild (index : ℕ) : ℕ := 2 * index + 1

/-- JS `rightChild(index) = 2 * index + 2`. -/
def rightChild (index : ℕ) : ℕ := 2 * index + 2

variable {α : Type*} [Inhabited α]

/-- The JS destructuring swap
`[heap[i], heap[j]] = [heap[j], heap[i]]`: both reads happen before
either write. -/
def swapIdx (l : List α) (i j : ℕ) : List α :=
  (l.set i (l.getD j default)).set j (l.getD i default)

/-- The body of one `heapifyDown` iteration: the index the code calls
`currMin` after the two child comparisons. -/
def childMin (cmp : α → α → Int) (l : List α) (index : ℕ) : ℕ :=
  let n := l.length
  let c₁ := if leftChild index < n ∧
      cmp (l.getD (leftChild index) default) (l.getD index default) < 0 then
    leftChild index else index
  if rightChild index < n ∧
      cmp (l.getD (rightChild index) default) (l.getD c₁ default) < 0 then
    rightChild index else c₁

/-- The `while (true)` loop of JS `heapifyDown(index)` as structural
recursion on a step counter: repeatedly swap the current node with the
smaller of its two children while it violates heap order.  In the
source, after the swap the loop continues with `index = currMin` and
resets `currMin` to `index` at the top of each comparison round, so
each round is exactly `childMin` followed by either a swap or a
break.  Each round strictly increases `index` below `l.length`, so
`l.length - index` rounds always suffice and the `0` case is never
reached from `heapifyDown` itself. -/
def heapifyDownAux (cmp : α → α → Int) : ℕ → List α → ℕ → List α
  | 0, l, _ => l
  | fuel + 1, l, index =>
    if childMin cmp l index ≠ index then
      heapifyDownAux cmp fuel (swapIdx l index (childMin cmp l index))
        (childMin cmp l index)
    else l

/-- JS `heapifyDown(index)`. -/
def heapifyDown (cmp : α → α → Int) (l : List α) (index : ℕ) : List α :=
  heapifyDownAux cmp (l.length - index) l index

/-- The `while` loop of JS `heapifyUp(index)` as structural recursion
on a step counter: swap with the parent while the parent compares
greater.  Each round strictly decreases `index`, so `index` rounds
always suffice. -/
def heapifyUpAux (cmp : α → α → Int) : ℕ → List α → ℕ → List α
  | 0, l, _ => l
  | fuel + 1, l, index =>
    if index ≠ 0 ∧
        0 < cmp (l.getD (parent index) default) (l.getD index default) then
      heapifyUpAux cmp fuel (swapIdx l (parent index) index) (parent index)
    else l

/-- JS `heapifyUp(index)`. -/
def heapifyUp (cmp : α → α → Int) (l : List α) (index : ℕ) : List α :=
  heapifyUpAux cmp index l index

/-- JS `insert(value)`: push then sift up from the last position. -/
def insert (cmp : α → α → Int) (l : List α) (value : α) : List α :=
  heapifyUp cmp (l ++ [value]) ((l ++ [value]).length - 1)

/-- JS `popMin()`.  On a non-empty heap: read the root, overwrite the
root with the last element, shrink by one, sift down.  On an empty
heap the guard `if (!this.#heap)` never fires (an empty array is
truthy); the code then reads `heap[0]` (`undefined`, modelled as
`none`), the write `heap[0] = heap[-1]` followed by `pop()` leaves the
empty array empty, and `heapifyDown(0)` does nothing. -/
def popMin (cmp : α → α → Int) (l : List α) : Option α × List α :=
  match l with
  | [] => (none, [])
  | _ :: _ =>
    let min := l.getD 0 default
    let l₁ := (l.set 0 (l.getD (l.length - 1) default)).dropLast
    (some min, heapifyDown cmp l₁ 0)

/-- The constructor loop for an initial array: `heapifyDown(i)` for
`i` from `Math.floor(length / 2) - 1` down to `0`.  `buildAux cmp l k`
runs the iterations with index `k - 1` down to `0`. -/
def buildAux (cmp : α → α → Int) (l : List α) : ℕ → List α
  | 0 => l
  | i + 1 => buildAux cmp (heapifyDown cmp l i) i

/-- JS `new MinHeap(compare, args)` with an initial array. -/
def build (cmp : α → α → Int) (l : List α) : List α :=
  buildAux cmp l (l.length / 2)

/-- JS `isEmpty()`. -/
def isEmpty (l : List α) : Bool := !(decide (0 < l.length))

/-- The documented heap invariant: every parent/child edge whose
parent index is at least `start` is ordered by the comparator. -/
def HeapFrom (cmp : α → α → Int) (l : List α) (start : ℕ) : Prop :=
  ∀ child, 0 < child → child < l.length → start ≤ parent child →
    cmpLe cmp (l.getD (parent child) default) (l.getD child default)

/-- The full min-heap invariant of the spec:
`compare(parent(i), heap[i]) <= 0` for every `i > 0`. -/
def IsMinHeap (cmp : α → α → Int) (l : List α) : Prop := HeapFrom cmp l 0

/-- Intermediate state of the `heapifyDown` loop: all edges in the
active region are ordered except possibly the two below `hole`, and
once the hole has moved, its children fit below its parent. -/
structure SiftState (cmp : α → α → Int) (l : List α) (start hole : ℕ) :
    Prop where
  lower : start ≤ hole
  bounded : hole < l.length
  heap : ∀ child, 0 < child → child < l.length → start ≤ parent child →
    parent child ≠ hole →
    cmpLe cmp (l.getD (parent child) default) (l.getD child default)
  upper : start < hole → ∀ child, 0 < child → child < l.length →
    parent child = hole →
    cmpLe cmp (l.getD (parent hole) default) (l.getD child default)

/-- Intermediate state of the `heapifyUp` loop: all edges are ordered
except possibly the one into `hole`, and the children of `hole` fit
below its parent. -/
structure SiftUpState (cmp : α → α → Int) (l : List α) (hole : ℕ) :
    Prop where
  bounded : hole < l.length
  heap : ∀ child, 0 < child → child < l.length → child ≠ hole →
    cmpLe cmp (l.getD (parent child) default) (l.getD child default)
  lower : ∀ child, 0 < child → child < l.length → parent child = hole →
    cmpLe cmp (l.getD (parent hole) default) (l.getD child default)

/-- Insert a whole array of values one after the other. -/
def insertAll (cmp : α → α → Int) (l : List α) (vs : List α) : List α :=
  vs.foldl (insert cmp) l

/-- The values returned by `k` successive `popMin()` calls while the
heap is non-empty. -/
def popSeq (cmp : α → α → Int) (l : List α) : ℕ → List α
  | 0 => []
  | k + 1 =>
    match popMin cmp l with
    | (none, _) => []
    | (some v, rest) => v :: popSeq cmp rest k

end MinHeap

/-! ## Queue (src/unnamed/part_003, `Queue.ts`)

The queue is a singly linked chain of nodes with head/tail pointers,
used purely as a FIFO sequence; we represent the chain as a `List`
whose head is the queue front. -/

namespace Queue

variable {α : Type*}

/-- JS `enqueue(value)`: append a new node at the tail. -/
def enqueue (q : List α) (value : α) : List α := q ++ [value]

/-- JS `dequeue()`: remove and return the head value, `null` if empty. -/
def dequeue (q : List α) : Option α × List α :=
  match q with
  | [] => (none, [])
  | h :: t => (some h, t)

end Queue

/-! ## Graph (src/Homeworks/Homework_9/Graph.ts)

`Map<T, GraphNode<T>[]>` becomes an association list with unique keys
in insertion order; `Map.get` is `lookup`, `Map.set` replaces an
existing binding in place or appends a new one at the end, exactly the
JS `Map` semantics. -/

/-- An adjacency-list entry `{node, weight}` (class `GraphNode<T>`). -/
structure GraphNode (α : Type*) where
  node : α
  weight : Int
deriving DecidableEq, Repr

instance {α : Type*} [Inhabited α] : Inhabited (GraphNode α) := ⟨⟨default, 0⟩⟩

/-- A flattened edge `{from, to, weight}` (type `Edge<T>`). -/
structure Edge (α : Type*) where
  source : α
  target : α
  weight : Int
deriving DecidableEq, Repr

/-- The graph state: the private `_adjacencyList` map. -/
abbrev AdjList (α : Type*) := List (α × List (GraphNode α))

namespace Graph

variable {α : Type*} [DecidableEq α]

/-- JS `Map.get`. -/
def lookup (m : AdjList α) (k : α) : Option (List (GraphNode α)) :=
  match m with
  | [] => none
  | (k', v) :: rest => if k = k' then some v else lookup rest k

/-- JS `Map.has`. -/
def hasNode (m : AdjList α) (k : α) : Bool := (lookup m k).isSome

/-- JS `Map.set`: overwrite an existing key in place, otherwise append
the new binding at the end (insertion order). -/
def setKey (m : AdjList α) (k : α) (v : List (GraphNode α)) : AdjList α :=
  match m with
  | [] => [(k, v)]
  | (k', v') :: rest =>
    if k = k' then (k, v) :: rest else (k', v') :: setKey rest k v

/-- JS `addNode(value)`: `set(value, [])` when absent (returning
`true`), no-op when present (returning `false`). -/
def addNode (m : AdjList α) (value : α) : AdjList α × Bool :=
  if hasNode m value then (m, false) else (setKey m value [], true)

/-- JS `this._adjacencyList.get(k)?.push(gn)`: append to the adjacency
array of `k` if the key exists (in `addEdge` it always does). -/
def pushNeighbor (m : AdjList α) (k : α) (gn : GraphNode α) : AdjList α :=
  match m with
  | [] => []
  | (k', v) :: rest =>
    if k = k' then (k', v ++ [gn]) :: rest else (k', v) :: pushNeighbor rest k gn

/-- JS `addEdge(from, to, weight = 1, undirected = true)`. -/
def addEdge (m : AdjList α) (src dst : α) (weight : Int := 1)
    (undirected : Bool := true) : AdjList α :=
  let m₁ := (addNode m src).1
  let m₂ := (addNode m₁ dst).1
  let m₃ := pushNeighbor m₂ src ⟨dst, weight⟩
  if undirected then pushNeighbor m₃ dst ⟨src, weight⟩ else m₃

/-- JS `getNeighbors(node)`: `undefined` when the node is absent. -/
def getNeighbors (m : AdjList α) (node : α) : Option (List (GraphNode α)) :=
  lookup m node

/-- JS `getAllNodes()`. -/
def getAllNodes (m : AdjList α) : List α := m.map (·.1)

/-- JS `getAllEdges()`: flatten the adjacency list. -/
def getAllEdges (m : AdjList α) : List (Edge α) :=
  (m.map (fun p => p.2.map fun adjNode => Edge.mk p.1 adjNode.node adjNode.weight)).flatten

/-! ### Breadth-first search

`BreathFirstSearch` [sic] first tests the start node for JS
truthiness (`if (!node) return null`); the truthiness test of the
element type is a parameter `falsy`.  The `visited` set is a
duplicate-free list, the queue a `Queue` as above. -/

/-- One relaxation round of the BFS loop body: walk the neighbor array
in order, enqueueing each not-yet-visited neighbor and marking it
visited at enqueue time. -/
def bfsStep (visited : List α) (queue : List (α × List α)) (path : List α) :
    List (GraphNode α) → List α × List (α × List α)
  | [] => (visited, queue)
  | nb :: rest =>
    if nb.node ∈ visited then bfsStep visited queue path rest
    else bfsStep (nb.node :: visited) (Queue.enqueue queue (nb.node, path ++ [nb.node]))
      path rest

/-- The BFS `while (queue.size > 0)` loop, fuel-recursive. -/
def bfsAux (m : AdjList α) (target : α) :
    ℕ → List α → List (α × List α) → Option (List α)
  | 0, _, _ => none
  | _ + 1, _, [] => none
  | fuel + 1, visited, (currNode, path) :: rest =>
    if currNode = target then some path
    else
      let s := bfsStep visited rest path ((lookup m currNode).getD [])
      bfsAux m target fuel s.1 s.2

/-- Fuel that dominates the total number of loop iterations: one plus
the number of node occurrences in the graph plus one for the start
node (every iteration dequeues an entry, and every enqueued entry
carries a distinct node drawn from this universe). -/
def bfsFuel (m : AdjList α) : ℕ :=
  2 + (m.map (fun p => p.1 :: p.2.map (·.node))).flatten.length

/-- JS `Graph.BreathFirstSearch(adjecencyList, startNode, target)`. -/
def BreathFirstSearch (m : AdjList α) (falsy : α → Bool) (startNode target : α) :
    Option (List α) :=
  if falsy startNode then none
  else bfsAux m target (bfsFuel m) [startNode] [(startNode, [startNode])]

/-- Instrumented version of the BFS relaxation round that also
records, in order, every node that gets enqueued.  Its first two
components coincide with `bfsStep` (proved below). -/
def bfsStepTrace (visited : List α) (queue : List (α × List α))
    (path : List α) (trace : List α) :
    List (GraphNode α) → List α × List (α × List α) × List α
  | [] => (visited, queue, trace)
  | nb :: rest =>
    if nb.node ∈ visited then bfsStepTrace visited queue path trace rest
    else bfsStepTrace (nb.node :: visited)
      (Queue.enqueue queue (nb.node, path ++ [nb.node])) path
      (trace ++ [nb.node]) rest

/-- Instrumented BFS loop returning the result together with the full
enqueue trace. -/
def bfsAuxTrace (m : AdjList α) (target : α) :
    ℕ → List α → List (α × List α) → List α → Option (List α) × List α
  | 0, _, _, trace => (none, trace)
  | _ + 1, _, [], trace => (none, trace)
  | fuel + 1, visited, (currNode, path) :: rest, trace =>
    if currNode = target then (some path, trace)
    else
      let s := bfsStepTrace visited rest path trace ((lookup m currNode).getD [])
      bfsAuxTrace m target fuel s.1 s.2.1 s.2.2

/-- `BreathFirstSearch` with the enqueue trace (the start node is the
first enqueue). -/
def BreathFirstSearchTrace (m : AdjList α) (falsy : α → Bool)
    (startNode target : α) : Option (List α) × List α :=
  if falsy startNode then (none, [])
  else bfsAuxTrace m target (bfsFuel m) [startNode]
    [(startNode, [startNode])] [startNode]

/-- The one-step adjacency used by the searches: `v` occurs in the
adjacency array of `u` (edges reachable via `Map.get(u) || []`). -/
def adjacentB (m : AdjList α) (u v : α) : Prop :=
  ∃ gn ∈ (lookup m u).getD [], gn.node = v

/-- A path as the searches produce them: a non-empty node sequence
from `s` to `t` whose consecutive nodes are adjacent. -/
def IsBfsPath (m : AdjList α) (s t : α) (p : List α) : Prop :=
  p ≠ [] ∧ p.head? = some s ∧ p.getLast? = some t ∧ p.Chain' (adjacentB m)

/-- All node occurrences of the adjacency list: every node a BFS run
can ever enqueue is the start node or belongs to this list. -/
def bfsUniverse (m : AdjList α) : List α :=
  (m.map (fun p => p.1 :: p.2.map (·.node))).flatten

/-- The number of potential BFS targets not yet visited; together
with the queue length this bounds the remaining iteration count. -/
def countUnvisited (U visited : List α) : ℕ :=
  (U.filter (fun x => !(decide (x ∈ visited)))).length

/-- The BFS loop invariant. `s` is the start node, `t` the target. -/
structure BfsInv (m : AdjList α) (s t : α) (visited : List α)
    (queue : List (α × List α)) : Prop where
  vis_start : s ∈ visited
  q_sub : ∀ np ∈ queue, np.1 ∈ visited
  q_nodup : (queue.map (·.1)).Nodup
  q_path : ∀ np ∈ queue, IsBfsPath m s np.1 np.2
  q_min : ∀ np ∈ queue, ∀ q, IsBfsPath m s np.1 q → np.2.length ≤ q.length
  q_chain : (queue.map (fun np => np.2.length)).Chain' (· ≤ ·)
  q_spread : ∀ a ∈ (queue.map (fun np => np.2.length)).head?,
    ∀ b ∈ (queue.map (fun np => np.2.length)).getLast?, b ≤ a + 1
  closed : ∀ u ∈ visited, (∀ np ∈ queue, np.1 ≠ u) →
    ∀ gn ∈ (lookup m u).getD [], gn.node ∈ visited
  t_pending : t ∈ visited → ∃ np ∈ queue, np.1 = t
  unvis_far : ∀ w, w ∉ visited → ∀ q, IsBfsPath m s w q →
    ∀ a ∈ (queue.map (fun np => np.2.length)).head?, a + 1 ≤ q.length

/-! ### Depth-first search

The recursive inner `search` shares one mutable `visited` set across
all recursive calls, so the embedding threads the visited list through
and returns it. -/

mutual

/-- The inner recursive `search(graph, node, path, visited)`. -/
def dfsSearch (m : AdjList α) (falsy : α → Bool) (target : α) :
    ℕ → α → List α → List α → Option (List α) × List α
  | 0, _, _, visited => (none, visited)
  | fuel + 1, node, path, visited =>
    if falsy node ∨ node ∈ visited then (none, visited)
    else if node = target then (some path, visited)
    else dfsLoop m falsy target fuel ((lookup m node).getD []) path (node :: visited)
termination_by fuel _ _ _ => (fuel, 0)

/-- The `for (const neighbor of graph.get(node) || [])` loop inside
`search`. -/
def dfsLoop (m : AdjList α) (falsy : α → Bool) (target : α) :
    ℕ → List (GraphNode α) → List α → List α → Option (List α) × List α
  | _, [], _, visited => (none, visited)
  | fuel, nb :: rest, path, visited =>
    if nb.node ∈ visited then dfsLoop m falsy target fuel rest path visited
    else
      match dfsSearch m falsy target fuel nb.node (path ++ [nb.node]) visited with
      | (some p, vis) => (some p, vis)
      | (none, vis) => dfsLoop m falsy target fuel rest path vis
termination_by fuel nbs _ _ => (fuel, nbs.length + 1)

end

/-- JS `Graph.DepthFirstSearch(adjecencyList, startNode, target)`:
`if (!node) return null` then `search(adjecencyList, node, [node], visited)`
with a fresh empty visited set. -/
def DepthFirstSearch (m : AdjList α) (falsy : α → Bool) (startNode target : α) :
    Option (List α) :=
  if falsy startNode then none
  else (dfsSearch m falsy target (bfsFuel m) startNode [startNode] []).1

end Graph

/-! ## Dijkstra (function `dijkstra` in Graph.ts)

JS `number` distances (which reach `Infinity`) become `JsNum`; weights
in the repository are integers. -/

/-- A JS number that is either finite or `Infinity`. -/
inductive JsNum where
  | fin (n : Int)
  | inf
deriving DecidableEq, Repr

namespace JsNum

/-- `distance + edgeWeight` (adding anything to `Infinity` stays
`Infinity`). -/
def add (a : JsNum) (w : Int) : JsNum :=
  match a with
  | fin n => fin (n + w)
  | inf => inf

/-- The JS `<` on such numbers (`Infinity < Infinity` is false). -/
def ltB (a b : JsNum) : Bool :=
  match a, b with
  | fin n, fin m => decide (n < m)
  | fin _, inf => true
  | inf, _ => false

end JsNum

namespace Graph

variable {α : Type*} [DecidableEq α] [Inhabited α]

/-- The `nodeMap` of `dijkstra`: node to (tentative distance,
predecessor). -/
abbrev NodeMap (α : Type*) := List (α × (JsNum × Option α))

/-- JS `nodeMap.get(k)!`: in every state `dijkstra` reaches the key is
present; a missing key would make the JS code throw, the model answers
`(Infinity, null)`. -/
def nmGet (nm : NodeMap α) (k : α) : JsNum × Option α :=
  match nm with
  | [] => (JsNum.inf, none)
  | (k', v) :: rest => if k = k' then v else nmGet rest k

/-- JS `nodeMap.set`. -/
def nmSet (nm : NodeMap α) (k : α) (v : JsNum × Option α) : NodeMap α :=
  match nm with
  | [] => [(k, v)]
  | (k', v') :: rest =>
    if k = k' then (k, v) :: rest else (k', v') :: nmSet rest k v

/-- The comparator `compareNodes` defined inside `dijkstra`. -/
def compareNodes (a b : GraphNode α) : Int :=
  if a.weight > b.weight then 1 else if a.weight < b.weight then -1 else 0

/-- The `for (const neighbor of neighbors || [])` relaxation loop. -/
def dijkstraRelax (m : AdjList α) (sel : α) (visited : List α) :
    List (GraphNode α) → NodeMap α → List (GraphNode α) →
      NodeMap α × List (GraphNode α)
  | [], nm, pq => (nm, pq)
  | nb :: rest, nm, pq =>
    if nb.node ∈ visited then dijkstraRelax m sel visited rest nm pq
    else
      let currWeight := (nmGet nm nb.node).1
      let totalWeight := (nmGet nm sel).1.add nb.weight
      if totalWeight.ltB currWeight then
        dijkstraRelax m sel visited rest (nmSet nm nb.node (totalWeight, some sel))
          (MinHeap.insert compareNodes pq nb)
      else dijkstraRelax m sel visited rest nm pq

/-- The `while (!p_queue.isEmpty())` loop, fuel-recursive; on fuel
exhaustion it returns the node map reached so far. -/
def dijkstraLoop (m : AdjList α) :
    ℕ → List α → NodeMap α → List (GraphNode α) → NodeMap α
  | 0, _, nm, _ => nm
  | fuel + 1, visited, nm, pq =>
    if MinHeap.isEmpty pq then nm
    else
      match MinHeap.popMin compareNodes pq with
      | (none, _) => nm
      | (some sel, pq₁) =>
        let visited₁ := sel.node :: visited
        let s := dijkstraRelax m sel.node visited₁
          ((getNeighbors m sel.node).getD []) nm pq₁
        dijkstraLoop m fuel visited₁ s.1 s.2

/-- The predecessor walk `while (currNode !== null)` building `path`
by pushing at the end; fuel-recursive. -/
def dijkstraWalk (nm : NodeMap α) : ℕ → Option α → List α → List α
  | _, none, path => path
  | 0, some _, path => path
  | fuel + 1, some c, path => dijkstraWalk nm fuel (nmGet nm c).2 (path ++ [c])

/-- Fuel for the main loop: each pop either came from the single seed
or from an insertion, and every insertion strictly lowers the finite
distance of some node, so the crude bound
`(nodes + 1) * (edges + 1) + 1` dominates the iteration count. -/
def dijkstraFuel (m : AdjList α) : ℕ :=
  (m.length + 1) * ((getAllEdges m).length + 1) + 1

/-- JS `dijkstra(graph, from, to)`. -/
def dijkstra (m : AdjList α) (src dst : α) : Option (List α) :=
  if (getAllEdges m).any (fun e => decide (e.weight < 0)) then none
  else
    let nm₀ : NodeMap α := (getAllNodes m).map fun node =>
      (node, (if node = src then JsNum.fin 0 else JsNum.inf, (none : Option α)))
    let pq₀ := MinHeap.insert compareNodes ([] : List (GraphNode α)) ⟨src, 0⟩
    let nm := dijkstraLoop m (dijkstraFuel m) [] nm₀ pq₀
    some ((dijkstraWalk nm (m.length + 1) (some dst) []).reverse)

/-- The weight of the edge from `u` to `v` as recorded in the
adjacency list (the first matching entry), if present. -/
def findWeight (m : AdjList α) (u v : α) : Option Int :=
  (((lookup m u).getD []).find? fun gn => gn.node = v).map (·.weight)

/-- A list of nodes is a valid walk in the graph when every
consecutive pair is connected by a recorded edge. -/
def isValidWalk (m : AdjList α) : List α → Bool
  | [] => true
  | [_] => true
  | u :: v :: rest => (findWeight m u v).isSome && isValidWalk m (v :: rest)

/-- Total edge weight of a walk (first matching entry per hop);
`none` when some hop has no recorded edge. -/
def walkWeight (m : AdjList α) : List α → Option Int
  | [] => some 0
  | [_] => some 0
  | u :: v :: rest =>
    match findWeight m u v, walkWeight m (v :: rest) with
    | some w, some s => some (w + s)
    | _, _ => none

/-- JS truthiness of a number: `0` is falsy (` !node ` succeeds). -/
def jsFalsyInt (n : Int) : Bool := decide (n = 0)

/-- A small graph over JS numbers whose node `0` is falsy. -/
def zeroGraph : AdjList Int := addEdge ([] : AdjList Int) 0 1 1

/-- A two-node graph with one negative-weight edge. -/
def negGraph : AdjList Int := addEdge ([] : AdjList Int) 0 1 (-1)

/-- The true shortest distances from `"A"` in the city map, used as a
potential function certifying the optimal route weight. -/
def cityPhi (s : String) : Int :=
  if s = "A" then 0
  else if s = "B" then 3
  else if s = "C" then 2
  else if s = "D" then 8
  else if s = "E" then 10
  else 13

/-- The concrete city map built at the bottom of Graph.ts. -/
def cityMap : AdjList String :=
  let g : AdjList String := []
  let g := addEdge g "A" "B" 4
  let g := addEdge g "A" "C" 2
  let g := addEdge g "B" "C" 1
  let g := addEdge g "B" "D" 5
  let g := addEdge g "C" "D" 8
  let g := addEdge g "C" "E" 10
  let g := addEdge g "D" "E" 2
  let g := addEdge g "D" "Z" 6
  let g := addEdge g "E" "Z" 3
  g

end Graph

/-! ## Stack / MinMaxStack (src/Homeworks/Homework_9/Stack.ts)

The backing JS array grows at its end, so the stack top is the last
list element.  A `MinMaxStack` holds the primary array `#stack` and
the two shadow arrays `#minStack` / `#maxStack`. -/

structure MMStack (α : Type*) where
  stack : List α
  minStack : List α
  maxStack : List α
deriving DecidableEq, Repr

namespace MMStack

variable {α : Type*} [Inhabited α]

/-- JS `isEmpty()` (inherited from `Stack`): tests the primary array. -/
def isEmptyS (s : MMStack α) : Bool := decide (s.stack.length = 0)

/-- JS `getMin()`: top of the min shadow array unless the primary
stack is empty. -/
def getMin (s : MMStack α) : Option α :=
  if isEmptyS s then none else s.minStack.getLast?

/-- JS `getMax()`. -/
def getMax (s : MMStack α) : Option α :=
  if isEmptyS s then none else s.maxStack.getLast?

/-- JS `updateMinStack(value)`; `this.getMin()!` is only evaluated
when the shadow stack is non-empty (short-circuit `||`), and the
primary stack is non-empty at every call site. -/
def updateMinStack (cmp : α → α → Int) (s : MMStack α) (value : α) : MMStack α :=
  if s.minStack.length = 0 ∨ cmp value ((getMin s).getD default) < 0 then
    { s with minStack := s.minStack ++ [value] }
  else
    { s with minStack := s.minStack ++ [(getMin s).getD default] }

/-- JS `updateMaxStack(value)`. -/
def updateMaxStack (cmp : α → α → Int) (s : MMStack α) (value : α) : MMStack α :=
  if s.maxStack.length = 0 ∨ 0 < cmp value ((getMax s).getD default) then
    { s with maxStack := s.maxStack ++ [value] }
  else
    { s with maxStack := s.maxStack ++ [(getMax s).getD default] }

/-- JS `push(value)`: `super.push` then the two shadow updates. -/
def push (cmp : α → α → Int) (s : MMStack α) (value : α) : MMStack α :=
  let s₁ := { s with stack := s.stack ++ [value] }
  updateMaxStack cmp (updateMinStack cmp s₁ value) value

/-- JS `pop()`: `super.pop()` (`Array.prototype.pop() ?? null`), and
when the result is not `null`, pop both shadow arrays. -/
def pop (s : MMStack α) : Option α × MMStack α :=
  match s.stack.getLast? with
  | none => (none, s)
  | some v =>
    (some v,
      { stack := s.stack.dropLast
        minStack := s.minStack.dropLast
        maxStack := s.maxStack.dropLast })

/-- The empty stack produced by `new MinMaxStack(compare)`. -/
def empty : MMStack α := ⟨[], [], []⟩

/-- A push/pop operation at the public interface. -/
inductive Op (α : Type*) where
  | push (value : α)
  | pop

/-- The shadow-stack invariant of the spec:
`minStack[i] == min(primary[0..i])` under `compare`. -/
def PrefixMin (cmp : α → α → Int) (stack minS : List α) : Prop :=
  ∀ i, i < stack.length →
    minS.getD i default ∈ stack.take (i + 1) ∧
    ∀ x ∈ stack.take (i + 1), cmpLe cmp (minS.getD i default) x

/-- Symmetric invariant for the max shadow stack. -/
def PrefixMax (cmp : α → α → Int) (stack maxS : List α) : Prop :=
  ∀ i, i < stack.length →
    maxS.getD i default ∈ stack.take (i + 1) ∧
    ∀ x ∈ stack.take (i + 1), cmpLe cmp x (maxS.getD i default)

/-- Full MinMaxStack invariant: shadow depths match the primary depth
and every shadow entry is the running extremum of the prefix. -/
def MMInv (cmp : α → α → Int) (s : MMStack α) : Prop :=
  s.minStack.length = s.stack.length ∧
  s.maxStack.length = s.stack.length ∧
  PrefixMin cmp s.stack s.minStack ∧
  PrefixMax cmp s.stack s.maxStack

/-- Run a sequence of push/pop operations from a starting state. -/
def run (cmp : α → α → Int) (s : MMStack α) : List (Op α) → MMStack α
  | [] => s
  | Op.push v :: rest => run cmp (push cmp s v) rest
  | Op.pop :: rest => run cmp (pop s).2 rest

end MMStack

/-! ## LinkedList (src/unnamed/part_002, `LinkedList.ts`)

### Public-operation state model (for the size/tail invariant)

`chain` is the sequence of data values reachable from `_head`
following `next`; `tailIdx` is the position inside `chain` of the
node `_tail` points at (`none` when `_tail` is `null`); after a
`shift` that empties the list, `_tail` keeps pointing at the removed
node, which the model renders as `tailIdx = some 0` with an empty
`chain` (a dangling, non-null tail).  `size` is the `_size` counter
(an `Int`, since the counter can be driven below zero). -/

structure LL (α : Type*) where
  chain : List α
  tailIdx : Option ℕ
  size : Int
deriving DecidableEq, Repr

namespace LL

variable {α : Type*}

/-- `new LinkedList()`. -/
def empty : LL α := ⟨[], none, 0⟩

/-- JS `insert(value)`: append a node at the tail (when `_head` is
`null`, head and tail become the new node). -/
def insert (s : LL α) (value : α) : LL α :=
  match s.chain with
  | [] => ⟨[value], some 0, s.size + 1⟩
  | _ => ⟨s.chain ++ [value], some s.chain.length, s.size + 1⟩

/-- The `while (curr.next && curr.next.next)` walk of `pop()`
followed by `curr.next = null`: it severs the chain after the
second-to-last node — except that on a one-node chain `curr` is the
head itself and `curr.next = null` changes nothing. -/
def popSever : List α → List α
  | [] => []
  | [a] => [a]
  | [a, _] => [a]
  | a :: b :: c :: t => a :: popSever (b :: c :: t)

/-- JS `pop()`: guard `if (!this._tail || !this._head) return;`, then
read `tail.data`, sever, retarget `_tail`, decrement `_size`. -/
def pop (s : LL α) : Option α × LL α :=
  match s.tailIdx, s.chain with
  | none, _ => (none, s)
  | some _, [] => (none, s)
  | some i, _ :: _ =>
    let severed := popSever s.chain
    (s.chain.get? i, ⟨severed, some (severed.length - 1), s.size - 1⟩)

/-- JS `shift()`: guard `if (!this._head) return;`, advance `_head`,
decrement `_size`; `_tail` is left untouched (dangling when the list
becomes empty). -/
def shift (s : LL α) : Option α × LL α :=
  match s.chain with
  | [] => (none, s)
  | h :: t => (some h, ⟨t, s.tailIdx.map (· - 1), s.size - 1⟩)

/-- The §3 invariant of the spec: the size counter equals the number
of reachable nodes, and the tail is the last reachable node (null
exactly when the list is empty). -/
def SizeTailInv (s : LL α) : Prop :=
  s.size = s.chain.length ∧
    (match s.chain with
     | [] => s.tailIdx = none
     | _ :: _ => s.tailIdx = some (s.chain.length - 1))

/-! ### Externally built node chains (`LinkedList.cycle` / `LinkedList.from`)

Any finite chain of nodes reachable from a root is, up to renaming of
the node objects, a rho shape: positions `0, 1, 2, ...` with
`next i = i + 1`, where either the chain ends after `mu ≥ 1` nodes
(acyclic, `lam = 0`), or node `mu + lam - 1` points back to node `mu`
(a cycle of length `lam ≥ 1` entered at `mu`).  Node identity is
position equality, so the JS reference comparisons `slow == fast` and
`tail.next === cycle` become equality of positions. -/

/-- The `next` pointer of the rho-shaped chain. -/
def rhoNext (mu lam i : ℕ) : Option ℕ :=
  if i + 1 < mu + lam then some (i + 1)
  else if lam = 0 then none else some mu

/-- Phase one of Floyd (the `while (fast && fast.next)` loop of
`cycle`): returns the meeting node, or `none` when `fast` runs off
the end.  `slow!.next` is modelled with `.getD 0`; whenever the loop
is still running, `slow` trails `fast`, so that step is never `null`
in reachable states. -/
def floyd1 (mu lam : ℕ) : ℕ → ℕ → Option ℕ → Option ℕ
  | 0, _, _ => none
  | _ + 1, _, none => none
  | fuel + 1, slow, some f =>
    match rhoNext mu lam f with
    | none => none
    | some f₁ =>
      let slow₁ := (rhoNext mu lam slow).getD 0
      let fast₂ := rhoNext mu lam f₁
      if some slow₁ = fast₂ then some slow₁
      else floyd1 mu lam fuel slow₁ fast₂

/-- Phase two of Floyd (`slow = root; while (slow !== fast) ...`):
advance both one step until they coincide. -/
def floyd2 (mu lam : ℕ) : ℕ → ℕ → ℕ → Option ℕ
  | 0, slow, fast => if slow = fast then some slow else none
  | fuel + 1, slow, fast =>
    if slow = fast then some slow
    else floyd2 mu lam fuel ((rhoNext mu lam slow).getD 0) ((rhoNext mu lam fast).getD 0)

/-- JS `LinkedList.cycle(root)` on the rho chain (root is position 0,
always a real node, so the `if (!root)` guard does not fire). -/
def cycleModel (mu lam : ℕ) : Option ℕ :=
  match floyd1 mu lam (mu + lam + 1) 0 (some 0) with
  | none => none
  | some met => floyd2 mu lam (mu + 1) 0 met

/-- The `while (tail.next)` walk of `LinkedList.from`:
`visited` is the flag, `tail` the walk position, `count` the running
size.  The `Bool` in the result records normal loop exit (`false`
means the fuel ran out, a model artifact that the lemmas rule out). -/
def fromAux (mu lam : ℕ) (cycleEntry : Option ℕ) :
    ℕ → Bool → ℕ → ℕ → ℕ × ℕ × Bool
  | 0, _, tail, count => (tail, count, false)
  | fuel + 1, visited, tail, count =>
    match rhoNext mu lam tail with
    | none => (tail, count, true)
    | some nxt =>
      if cycleEntry = some nxt then
        if visited then (tail, count, true)
        else fromAux mu lam cycleEntry fuel true nxt (count + 1)
      else fromAux mu lam cycleEntry fuel visited nxt (count + 1)

/-- JS `LinkedList.from(root)` on the rho chain: run `cycle`, then
walk with the sever-on-second-visit logic; returns the final `_tail`
position, the recorded `_size`, and the normal-exit marker.  After
the sever, the nodes of the resulting list are the positions
`0 .. tail`, so the list has `tail + 1` elements. -/
def fromModel (mu lam : ℕ) : ℕ × ℕ × Bool :=
  fromAux mu lam (cycleModel mu lam) (mu + 2 * lam + 2) false 0 1

/-- The position reached from the root after `k` steps of `rhoNext`:
`k` itself while still on the chain, then wrapping around the cycle. -/
def posIdx (mu lam k : ℕ) : ℕ :=
  if k < mu + lam then k else mu + (k - mu) % lam

/-- The iteration index at which the two Floyd pointers first meet
(for `lam ≥ 1`): the least positive multiple of `lam` that is at
least `mu`. -/
def kst (mu lam : ℕ) : ℕ :=
  if mu = 0 then lam else lam * ((mu + lam - 1) / lam)

end LL

/-! # Theorems -/

/-! ## Comparator lemmas -/

namespace LawfulCmp

variable {α : Type*} {cmp : α → α → Int}

theorem le_refl (hc : LawfulCmp cmp) (a : α) : cmpLe cmp a a := by
  by_contra h
  have h1 : 0 < cmp a a := by simpa [cmpLe] using h
  have h2 := (hc.asym a a).mp h1
  omega

theorem le_total (hc : LawfulCmp cmp) (a b : α) :
    cmpLe cmp a b ∨ cmpLe cmp b a := by
  by_cases h : cmp a b ≤ 0
  · exact Or.inl h
  · right
    have h1 : 0 < cmp a b := by omega
    have h2 := (hc.asym a b).mp h1
    exact Int.le_of_lt h2

theorem le_of_not_lt (hc : LawfulCmp cmp) {a b : α} (h : ¬ cmp a b < 0) :
    cmpLe cmp b a := by
  by_cases h' : cmp b a ≤ 0
  · exact h'
  · exact absurd ((hc.asym b a).mp (by omega)) h

theorem le_of_sign_lt {a b : α} (h : cmp a b < 0) : cmpLe cmp a b :=
  Int.le_of_lt h

end LawfulCmp

theorem numCmp_lawful : LawfulCmp numCmp := by
  constructor
  · intro a b
    unfold numCmp
    omega
  · intro a b c h1 h2
    unfold numCmp at h1 h2 ⊢
    omega

/-! ## MinHeap access lemmas -/

namespace MinHeap

variable {α : Type*} [Inhabited α] {cmp : α → α → Int}

@[simp] theorem length_swapIdx (l : List α) (i j : ℕ) :
    (swapIdx l i j).length = l.length := by
  simp [swapIdx]

theorem childMin_cases (cmp : α → α → Int) (l : List α) (index : ℕ) :
    childMin cmp l index = index ∨
      ((childMin cmp l index = leftChild index ∨
        childMin cmp l index = rightChild index) ∧
        childMin cmp l index < l.length) := by
  unfold childMin
  dsimp only
  split
  · next h1 =>
    split
    · next h2 => exact Or.inr ⟨Or.inr rfl, h2.1⟩
    · exact Or.inr ⟨Or.inl rfl, h1.1⟩
  · split
    · next h2 => exact Or.inr ⟨Or.inr rfl, h2.1⟩
    · exact Or.inl rfl

theorem childMin_gt {cmp : α → α → Int} {l : List α} {index : ℕ}
    (h : childMin cmp l index ≠ index) :
    index < childMin cmp l index ∧ childMin cmp l index < l.length := by
  rcases childMin_cases cmp l index with h0 | ⟨h1 | h1, h2⟩
  · exact absurd h0 h
  · refine ⟨?_, h2⟩; rw [h1]; unfold leftChild; omega
  · refine ⟨?_, h2⟩; rw [h1]; unfold rightChild; omega

theorem getD_eq_of_lt (l : List α) {i : ℕ} (h : i < l.length) :
    l.getD i default = l[i] := List.getD_eq_getElem l default h

theorem getD_mem (l : List α) {i : ℕ} (h : i < l.length) :
    l.getD i default ∈ l := by
  rw [getD_eq_of_lt l h]
  exact List.getElem_mem h

theorem getD_swapIdx (l : List α) {i j : ℕ} (hi : i < l.length)
    (hj : j < l.length) (k : ℕ) :
    (swapIdx l i j).getD k default =
      if k = j then l.getD i default
      else if k = i then l.getD j default
      else l.getD k default := by
  unfold swapIdx
  rw [List.getD_eq_getElem?_getD, List.getElem?_set, List.getElem?_set]
  by_cases hkj : k = j
  · subst hkj
    rw [if_pos rfl, if_pos (by simpa using hj)]
    by_cases hki : k = i
    · subst hki
      simp [getD_eq_of_lt l hi]
    · simp [getD_eq_of_lt l hi]
  · rw [if_neg (fun h => hkj h.symm)]
    by_cases hki : k = i
    · subst hki
      rw [if_pos rfl, if_pos hi, if_neg hkj, if_pos rfl]
      simp [getD_eq_of_lt l hj]

    · rw [if_neg (fun h => hki h.symm), if_neg hkj, if_neg hki,
        ← List.getD_eq_getElem?_getD]

theorem swapIdx_subset (l : List α) {i j : ℕ} (hi : i < l.length)
    (hj : j < l.length) : ∀ x ∈ swapIdx l i j, x ∈ l := by
  intro x hx
  unfold swapIdx at hx
  rcases List.mem_or_eq_of_mem_set hx with hx' | rfl
  · rcases List.mem_or_eq_of_mem_set hx' with hx'' | rfl
    · exact hx''
    · exact getD_mem l hj
  · exact getD_mem l hi

/-- Every child index is the left or the right child of its parent. -/
theorem child_left_or_right {c : ℕ} (h : 0 < c) :
    c = leftChild (parent c) ∨ c = rightChild (parent c) := by
  unfold leftChild rightChild parent
  omega

theorem parent_leftChild (i : ℕ) : parent (leftChild i) = i := by
  unfold parent leftChild
  omega

theorem parent_rightChild (i : ℕ) : parent (rightChild i) = i := by
  unfold parent rightChild
  omega

/-- When `heapifyDown` breaks out of its loop, the current node
dominates both of its in-range children. -/
theorem childMin_eq_dominates (hc : LawfulCmp cmp) {l : List α} {hole : ℕ}
    (h : childMin cmp l hole = hole) :
    ∀ child, (child = leftChild hole ∨ child = rightChild hole) →
      child < l.length →
      cmpLe cmp (l.getD hole default) (l.getD child default) := by
  intro child hchild hlt
  have hl : ¬ (leftChild hole < l.length ∧
      cmp (l.getD (leftChild hole) default) (l.getD hole default) < 0) := by
    intro hP
    unfold childMin at h
    simp only at h
    rw [if_pos hP] at h
    split_ifs at h with h2
    · unfold rightChild at h; omega
    · unfold leftChild at h; omega
  rcases hchild with rfl | rfl
  · have : ¬ cmp (l.getD (leftChild hole) default) (l.getD hole default) < 0 := by
      intro hlt'
      exact hl ⟨hlt, hlt'⟩
    exact hc.le_of_not_lt this
  · have hr : ¬ (rightChild hole < l.length ∧
        cmp (l.getD (rightChild hole) default) (l.getD hole default) < 0) := by
      intro hP
      unfold childMin at h
      simp only at h
      rw [if_neg hl] at h
      rw [if_pos hP] at h
      unfold rightChild at h
      omega
    have : ¬ cmp (l.getD (rightChild hole) default) (l.getD hole default) < 0 := by
      intro hlt'
      exact hr ⟨hlt, hlt'⟩
    exact hc.le_of_not_lt this

/-- When `heapifyDown` swaps, `currMin` is an in-range child of the
current node, its value does not exceed the current value, and it is
least among the in-range children. -/
theorem childMin_ne_spec (hc : LawfulCmp cmp) {l : List α} {hole : ℕ}
    (h : childMin cmp l hole ≠ hole) :
    (childMin cmp l hole = leftChild hole ∨
      childMin cmp l hole = rightChild hole) ∧
    childMin cmp l hole < l.length ∧
    cmpLe cmp (l.getD (childMin cmp l hole) default) (l.getD hole default) ∧
    (∀ child, (child = leftChild hole ∨ child = rightChild hole) →
      child < l.length →
      cmpLe cmp (l.getD (childMin cmp l hole) default) (l.getD child default)) := by
  rcases childMin_cases cmp l hole with h0 | ⟨hlr, hbnd⟩
  · exact absurd h0 h
  refine ⟨hlr, hbnd, ?_⟩
  unfold childMin at *
  simp only at *
  by_cases hP₁ : leftChild hole < l.length ∧
      cmp (l.getD (leftChild hole) default) (l.getD hole default) < 0
  · rw [if_pos hP₁] at hlr hbnd h ⊢
    by_cases hP₂ : rightChild hole < l.length ∧
        cmp (l.getD (rightChild hole) default)
          (l.getD (leftChild hole) default) < 0
    · rw [if_pos hP₂]
      have hrl : cmpLe cmp (l.getD (rightChild hole) default)
          (l.getD (leftChild hole) default) := LawfulCmp.le_of_sign_lt hP₂.2
      have hlh : cmpLe cmp (l.getD (leftChild hole) default)
          (l.getD hole default) := LawfulCmp.le_of_sign_lt hP₁.2
      refine ⟨hc.le_trans _ _ _ hrl hlh, ?_⟩
      intro child hchild hlt
      rcases hchild with rfl | rfl
      · exact hrl
      · exact hc.le_refl _
    · rw [if_neg hP₂]
      have hlh : cmpLe cmp (l.getD (leftChild hole) default)
          (l.getD hole default) := LawfulCmp.le_of_sign_lt hP₁.2
      refine ⟨hlh, ?_⟩
      intro child hchild hlt
      rcases hchild with rfl | rfl
      · exact hc.le_refl _
      · have : ¬ cmp (l.getD (rightChild hole) default)
            (l.getD (leftChild hole) default) < 0 := fun hlt' => hP₂ ⟨hlt, hlt'⟩
        exact hc.le_of_not_lt this
  · rw [if_neg hP₁] at hlr hbnd h ⊢
    by_cases hP₂ : rightChild hole < l.length ∧
        cmp (l.getD (rightChild hole) default) (l.getD hole default) < 0
    · rw [if_pos hP₂]
      have hrh : cmpLe cmp (l.getD (rightChild hole) default)
          (l.getD hole default) := LawfulCmp.le_of_sign_lt hP₂.2
      refine ⟨hrh, ?_⟩
      intro child hchild hlt
      rcases hchild with rfl | rfl
      · have : ¬ cmp (l.getD (leftChild hole) default)
            (l.getD hole default) < 0 := fun hlt' => hP₁ ⟨hlt, hlt'⟩
        exact hc.le_trans _ _ _ hrh (hc.le_of_not_lt this)
      · exact hc.le_refl _
    · rw [if_neg hP₂] at h
      exact absurd rfl h

/-! ## heapifyDown correctness -/

theorem length_heapifyDownAux (cmp : α → α → Int) :
    ∀ (fuel : ℕ) (l : List α) (i : ℕ),
      (heapifyDownAux cmp fuel l i).length = l.length := by
  intro fuel
  induction fuel with
  | zero => intro l i; rfl
  | succ fuel ih =>
    intro l i
    unfold heapifyDownAux
    split_ifs with h
    · rw [ih, length_swapIdx]
    · rfl

theorem heapifyDownAux_subset (cmp : α → α → Int) :
    ∀ (fuel : ℕ) (l : List α) (i : ℕ),
      ∀ x ∈ heapifyDownAux cmp fuel l i, x ∈ l := by
  intro fuel
  induction fuel with
  | zero => intro l i x hx; exact hx
  | succ fuel ih =>
    intro l i x hx
    unfold heapifyDownAux at hx
    split_ifs at hx with h
    · have hb := childMin_gt h
      have hi : i < l.length := lt_trans hb.1 hb.2
      exact swapIdx_subset l hi hb.2 x (ih _ _ x hx)
    · exact hx

theorem siftState_initial {l : List α} {start : ℕ}
    (hbound : start < l.length) (hheap : HeapFrom cmp l (start + 1)) :
    SiftState cmp l start start := by
  refine ⟨Nat.le_refl _, hbound, ?_, ?_⟩
  · intro child h1 h2 h3 h4
    exact hheap child h1 h2 (by omega)
  · intro h
    omega

theorem SiftState.done (hc : LawfulCmp cmp) {l : List α} {start hole : ℕ}
    (st : SiftState cmp l start hole)
    (hdom : ∀ child, (child = leftChild hole ∨ child = rightChild hole) →
      child < l.length →
      cmpLe cmp (l.getD hole default) (l.getD child default)) :
    HeapFrom cmp l start := by
  intro child h1 h2 h3
  by_cases hp : parent child = hole
  · rw [hp]
    exact hdom child (by rw [← hp]; exact child_left_or_right h1) h2
  · exact st.heap child h1 h2 h3 hp

theorem SiftState.swap (hc : LawfulCmp cmp) {l : List α} {start hole : ℕ}
    (st : SiftState cmp l start hole)
    (hne : childMin cmp l hole ≠ hole) :
    SiftState cmp (swapIdx l hole (childMin cmp l hole)) start
      (childMin cmp l hole) := by
  obtain ⟨hlr, hm, hmh, hmin⟩ := childMin_ne_spec hc hne
  have hholem : hole < childMin cmp l hole := (childMin_gt hne).1
  have hhole : hole < l.length := lt_trans hholem hm
  have hsw := getD_swapIdx l hhole hm
  have hparent_m : parent (childMin cmp l hole) = hole := by
    rcases hlr with h | h
    · rw [h, parent_leftChild]
    · rw [h, parent_rightChild]
  have hlow := st.lower
  refine ⟨by omega, by rw [length_swapIdx]; exact hm, ?_, ?_⟩
  · -- ordered edges away from the new hole
    intro child h1 h2 h3 h4
    rw [length_swapIdx] at h2
    by_cases hpc : parent child = hole
    · have hchild_range : child = 2 * hole + 1 ∨ child = 2 * hole + 2 := by
        unfold parent at hpc
        omega
      by_cases hcm : child = childMin cmp l hole
      · have e1 : (swapIdx l hole (childMin cmp l hole)).getD child default =
            l.getD hole default := by
          rw [hsw child, if_pos hcm]
        have e2 : (swapIdx l hole (childMin cmp l hole)).getD (parent child)
            default = l.getD (childMin cmp l hole) default := by
          rw [hsw (parent child), if_neg (by omega), if_pos hpc]
        rw [e1, e2]
        exact hmh
      · have e1 : (swapIdx l hole (childMin cmp l hole)).getD child default =
            l.getD child default := by
          rw [hsw child, if_neg hcm, if_neg (by omega)]
        have e2 : (swapIdx l hole (childMin cmp l hole)).getD (parent child)
            default = l.getD (childMin cmp l hole) default := by
          rw [hsw (parent child), if_neg (by omega), if_pos hpc]
        rw [e1, e2]
        refine hmin child ?_ h2
        rw [← hpc]
        exact child_left_or_right h1
    · by_cases hch : child = hole
      · subst hch
        have hphole : parent child < child := by
          unfold parent
          omega
        have hstart : start < child := by omega
        have e1 : (swapIdx l child (childMin cmp l child)).getD child default =
            l.getD (childMin cmp l child) default := by
          rw [hsw child, if_neg (by omega), if_pos rfl]
        have e2 : (swapIdx l child (childMin cmp l child)).getD (parent child)
            default = l.getD (parent child) default := by
          rw [hsw (parent child), if_neg (by omega), if_neg (by omega)]
        rw [e1, e2]
        exact st.upper hstart (childMin cmp l child) (by omega) hm hparent_m
      · by_cases hcm : child = childMin cmp l hole
        · exact absurd (hcm ▸ hparent_m) hpc
        · have e1 : (swapIdx l hole (childMin cmp l hole)).getD child default =
              l.getD child default := by
            rw [hsw child, if_neg hcm, if_neg hch]
          have e2 : (swapIdx l hole (childMin cmp l hole)).getD (parent child)
              default = l.getD (parent child) default := by
            rw [hsw (parent child), if_neg (by omega), if_neg hpc]
          rw [e1, e2]
          exact st.heap child h1 h2 h3 hpc
  · -- the children of the new hole still fit below its parent
    intro hstartm child h1 h2 hpcm
    rw [length_swapIdx] at h2
    have hchild_gt : childMin cmp l hole < child := by
      unfold parent at hpcm
      omega
    have e1 : (swapIdx l hole (childMin cmp l hole)).getD
        (parent (childMin cmp l hole)) default =
        l.getD (childMin cmp l hole) default := by
      rw [hparent_m, hsw hole, if_neg (by omega), if_pos rfl]
    have e2 : (swapIdx l hole (childMin cmp l hole)).getD child default =
        l.getD child default := by
      rw [hsw child, if_neg (by omega), if_neg (by omega)]
    rw [e1, e2]
    have hres := st.heap child h1 h2 (by omega) (by omega)
    rw [hpcm] at hres
    exact hres

theorem heapifyDownAux_heapFrom (hc : LawfulCmp cmp) :
    ∀ (fuel : ℕ) (l : List α) (start hole : ℕ), l.length - hole ≤ fuel →
      SiftState cmp l start hole →
      HeapFrom cmp (heapifyDownAux cmp fuel l hole) start := by
  intro fuel
  induction fuel with
  | zero =>
    intro l start hole hf st
    exact absurd st.bounded (by omega)
  | succ fuel ih =>
    intro l start hole hf st
    unfold heapifyDownAux
    split_ifs with h
    · apply ih
      · rw [length_swapIdx]
        have := childMin_gt h
        omega
      · exact st.swap hc h
    · exact st.done hc (childMin_eq_dominates hc (not_not.mp h))

theorem heapifyDown_heapFrom (hc : LawfulCmp cmp) {l : List α} {start : ℕ}
    (hbound : start < l.length) (hheap : HeapFrom cmp l (start + 1)) :
    HeapFrom cmp (heapifyDown cmp l start) start := by
  unfold heapifyDown
  exact heapifyDownAux_heapFrom hc _ l start start (by omega)
    (siftState_initial hbound hheap)

theorem heapifyDown_subset (cmp : α → α → Int) (l : List α) (i : ℕ) :
    ∀ x ∈ heapifyDown cmp l i, x ∈ l :=
  heapifyDownAux_subset cmp _ l i

/-- Edges whose parent is at least `k` are vacuously ordered once
`2k + 1` is out of range. -/
theorem heapFrom_vacuous (cmp : α → α → Int) (l : List α) {k : ℕ}
    (hk : l.length ≤ 2 * k + 1) : HeapFrom cmp l k := by
  intro child h1 h2 h3
  unfold parent at h3
  omega

/-! ## Bottom-up construction -/

theorem buildAux_heapFrom (hc : LawfulCmp cmp) :
    ∀ (k : ℕ) (l : List α), HeapFrom cmp l k →
      HeapFrom cmp (buildAux cmp l k) 0 := by
  intro k
  induction k with
  | zero => intro l h; exact h
  | succ k ih =>
    intro l h
    unfold buildAux
    apply ih
    by_cases hk : k < l.length
    · exact heapifyDown_heapFrom hc hk h
    · have e : heapifyDown cmp l k = l := by
        unfold heapifyDown
        rw [Nat.sub_eq_zero_of_le (Nat.le_of_not_lt hk)]
        rfl
      rw [e]
      exact heapFrom_vacuous cmp l (by omega)

theorem build_isMinHeap (hc : LawfulCmp cmp) (l : List α) :
    IsMinHeap cmp (build cmp l) :=
  buildAux_heapFrom hc _ l (heapFrom_vacuous cmp l (by omega))

/-! ## The root is the minimum -/

theorem heapFrom_root_le (hc : LawfulCmp cmp) {l : List α}
    (hh : IsMinHeap cmp l) :
    ∀ i, i < l.length →
      cmpLe cmp (l.getD 0 default) (l.getD i default) := by
  intro i
  induction i using Nat.strong_induction_on with
  | _ i ih =>
    intro hi
    by_cases h0 : i = 0
    · subst h0
      exact hc.le_refl _
    · have hpos : 0 < i := Nat.pos_of_ne_zero h0
      have hpar : parent i < i := by unfold parent; omega
      have h1 := hh i hpos hi (Nat.zero_le _)
      have h2 := ih (parent i) hpar (lt_trans hpar hi)
      exact hc.le_trans _ _ _ h2 h1

theorem root_le_mem (hc : LawfulCmp cmp) {l : List α} (hh : IsMinHeap cmp l) :
    ∀ x ∈ l, cmpLe cmp (l.getD 0 default) x := by
  intro x hx
  obtain ⟨i, hi, hix⟩ := List.mem_iff_getElem.mp hx
  have := heapFrom_root_le hc hh i hi
  rwa [getD_eq_of_lt l hi, hix] at this

/-! ## popMin -/

theorem popMin_fst {l : List α} (h : l ≠ []) :
    (popMin cmp l).1 = some (l.getD 0 default) := by
  cases l with
  | nil => exact absurd rfl h
  | cons a t => rfl

theorem popMin_snd_subset (l : List α) :
    ∀ x ∈ (popMin cmp l).2, x ∈ l := by
  cases l with
  | nil => intro x hx; exact absurd hx (by simp [popMin])
  | cons a t =>
    intro x hx
    have hx₁ := heapifyDown_subset cmp _ 0 x hx
    have hx₂ := List.dropLast_subset _ hx₁
    rcases List.mem_or_eq_of_mem_set hx₂ with hx₃ | rfl
    · exact hx₃
    · exact getD_mem _ (by simp)

theorem getD_set_dropLast (l : List α) (v : α) {k : ℕ}
    (hk : k < l.length - 1) (hk0 : k ≠ 0) :
    ((l.set 0 v).dropLast).getD k default = l.getD k default := by
  have h1 : k < ((l.set 0 v).dropLast).length := by
    rw [List.length_dropLast, List.length_set]
    omega
  rw [getD_eq_of_lt _ h1, List.getElem_dropLast, List.getElem_set,
    if_neg (Ne.symm hk0), ← getD_eq_of_lt l (by omega)]

theorem popMin_snd_heap (hc : LawfulCmp cmp) {l : List α}
    (hh : IsMinHeap cmp l) : IsMinHeap cmp (popMin cmp l).2 := by
  cases l with
  | nil =>
    intro child h1 h2 h3
    simp [popMin] at h2
  | cons a t =>
    show IsMinHeap cmp (heapifyDown cmp _ 0)
    set l₁ := (((a :: t).set 0 ((a :: t).getD ((a :: t).length - 1)
      default)).dropLast) with hl₁
    by_cases hlen : l₁.length = 0
    · have e : heapifyDown cmp l₁ 0 = l₁ := by
        unfold heapifyDown
        rw [Nat.sub_zero, hlen]
        rfl
      rw [e]
      intro child h1 h2 h3
      omega
    · apply heapifyDown_heapFrom hc (by omega)
      intro child h1 h2 h3
      have hlen₁ : l₁.length = (a :: t).length - 1 := by
        rw [hl₁, List.length_dropLast, List.length_set]
      have hpar_pos : 1 ≤ parent child := h3
      have hchild_big : 2 ≤ child := by
        unfold parent at h3
        omega
      have hpc_lt : parent child < child := by
        unfold parent
        omega
      rw [getD_set_dropLast _ _ (by omega) (by omega),
        getD_set_dropLast _ _ (by omega) (by omega)]
      exact hh child h1 (by omega) (Nat.zero_le _)

/-! ## heapifyUp and insert -/

theorem getD_append_left {l l₂ : List α} {k : ℕ} (hk : k < l.length) :
    (l ++ l₂).getD k default = l.getD k default := by
  rw [getD_eq_of_lt _ (by simp; omega), getD_eq_of_lt l hk]
  exact List.getElem_append_left hk

theorem siftUpState_initial {l : List α} (hh : IsMinHeap cmp l) (v : α) :
    SiftUpState cmp (l ++ [v]) l.length := by
  refine ⟨by simp, ?_, ?_⟩
  · intro child h1 h2 hne
    simp only [List.length_append, List.length_singleton] at h2
    have hc2 : child < l.length := by omega
    have hpc : parent child < l.length := by
      unfold parent
      omega
    rw [getD_append_left hc2, getD_append_left hpc]
    exact hh child h1 hc2 (Nat.zero_le _)
  · intro child h1 h2 hpc
    have : child = 2 * l.length + 1 ∨ child = 2 * l.length + 2 := by
      unfold parent at hpc
      omega
    simp only [List.length_append, List.length_singleton] at h2
    omega

theorem SiftUpState.isMinHeap_of_root {l : List α} {hole : ℕ}
    (st : SiftUpState cmp l hole) (h : hole = 0) : IsMinHeap cmp l := by
  intro child h1 h2 h3
  exact st.heap child h1 h2 (by omega)

theorem SiftUpState.isMinHeap_of_le {l : List α} {hole : ℕ}
    (st : SiftUpState cmp l hole)
    (hdom : cmpLe cmp (l.getD (parent hole) default) (l.getD hole default)) :
    IsMinHeap cmp l := by
  intro child h1 h2 h3
  by_cases hch : child = hole
  · subst hch
    exact hdom
  · exact st.heap child h1 h2 hch

theorem SiftUpState.swapUp (hc : LawfulCmp cmp) {l : List α} {hole : ℕ}
    (st : SiftUpState cmp l hole) (hpos : hole ≠ 0)
    (hgt : 0 < cmp (l.getD (parent hole) default) (l.getD hole default)) :
    SiftUpState cmp (swapIdx l (parent hole) hole) (parent hole) := by
  have hb := st.bounded
  have hph : parent hole < hole := by unfold parent; omega
  have hpb : parent hole < l.length := lt_trans hph hb
  have hsw := getD_swapIdx l hpb hb
  have hlt : cmp (l.getD hole default) (l.getD (parent hole) default) < 0 :=
    (hc.asym _ _).mp hgt
  have hle : cmpLe cmp (l.getD hole default) (l.getD (parent hole) default) :=
    LawfulCmp.le_of_sign_lt hlt
  refine ⟨by rw [length_swapIdx]; exact hpb, ?_, ?_⟩
  · intro child h1 h2 hne
    rw [length_swapIdx] at h2
    by_cases hch : child = hole
    · subst hch
      have e1 : (swapIdx l (parent child) child).getD child default =
          l.getD (parent child) default := by
        rw [hsw child, if_pos rfl]
      have e2 : (swapIdx l (parent child) child).getD (parent child) default =
          l.getD child default := by
        rw [hsw (parent child), if_neg (by omega), if_pos rfl]
      rw [e1, e2]
      exact hle
    · by_cases hpc : parent child = hole
      · have e1 : (swapIdx l (parent hole) hole).getD child default =
            l.getD child default := by
          rw [hsw child, if_neg hch, if_neg hne]
        have e2 : (swapIdx l (parent hole) hole).getD (parent child) default =
            l.getD (parent hole) default := by
          rw [hsw (parent child), if_pos hpc]
        rw [e1, e2]
        exact st.lower child h1 h2 hpc
      · by_cases hpp : parent child = parent hole
        · have e1 : (swapIdx l (parent hole) hole).getD child default =
              l.getD child default := by
            rw [hsw child, if_neg hch, if_neg hne]
          have e2 : (swapIdx l (parent hole) hole).getD (parent child)
              default = l.getD hole default := by
            rw [hsw (parent child), if_neg (by omega), if_pos hpp]
          rw [e1, e2]
          have hstp := st.heap child h1 h2 hch
          rw [hpp] at hstp
          exact hc.le_trans _ _ _ hle hstp
        · have e1 : (swapIdx l (parent hole) hole).getD child default =
              l.getD child default := by
            rw [hsw child, if_neg hch, if_neg hne]
          have e2 : (swapIdx l (parent hole) hole).getD (parent child)
              default = l.getD (parent child) default := by
            rw [hsw (parent child), if_neg hpc, if_neg hpp]
          rw [e1, e2]
          exact st.heap child h1 h2 hch
  · intro child h1 h2 hpc
    rw [length_swapIdx] at h2
    have hchild_gt : parent hole < child := by
      unfold parent at hpc ⊢
      omega
    by_cases hroot : parent hole = 0
    · have epp : parent (parent hole) = parent hole := by
        rw [hroot]
        rfl
      have e2 : (swapIdx l (parent hole) hole).getD (parent (parent hole))
          default = l.getD hole default := by
        rw [epp, hsw (parent hole), if_neg (by omega), if_pos rfl]
      rw [e2]
      by_cases hch : child = hole
      · subst hch
        have e1 : (swapIdx l (parent child) child).getD child default =
            l.getD (parent child) default := by
          rw [hsw child, if_pos rfl]
        rw [e1]
        exact hle
      · have e1 : (swapIdx l (parent hole) hole).getD child default =
            l.getD child default := by
          rw [hsw child, if_neg hch, if_neg (by omega)]
        rw [e1]
        have hstp := st.heap child h1 h2 hch
        rw [hpc] at hstp
        exact hc.le_trans _ _ _ hle hstp
    · have hppos : 0 < parent hole := Nat.pos_of_ne_zero hroot
      have hppp : parent (parent hole) < parent hole := by
        unfold parent at hppos ⊢
        omega
      have e2 : (swapIdx l (parent hole) hole).getD (parent (parent hole))
          default = l.getD (parent (parent hole)) default := by
        rw [hsw (parent (parent hole)), if_neg (by omega), if_neg (by omega)]
      rw [e2]
      have hstep : cmpLe cmp (l.getD (parent (parent hole)) default)
          (l.getD (parent hole) default) :=
        st.heap (parent hole) (by omega) hpb (by omega)
      by_cases hch : child = hole
      · subst hch
        have e1 : (swapIdx l (parent child) child).getD child default =
            l.getD (parent child) default := by
          rw [hsw child, if_pos rfl]
        rw [e1]
        exact hstep
      · have e1 : (swapIdx l (parent hole) hole).getD child default =
            l.getD child default := by
          rw [hsw child, if_neg hch, if_neg (by omega)]
        rw [e1]
        have hstp := st.heap child h1 h2 hch
        rw [hpc] at hstp
        exact hc.le_trans _ _ _ hstep hstp

theorem heapifyUpAux_isMinHeap (hc : LawfulCmp cmp) :
    ∀ (fuel : ℕ) (l : List α) (hole : ℕ), hole ≤ fuel →
      SiftUpState cmp l hole →
      IsMinHeap cmp (heapifyUpAux cmp fuel l hole) := by
  intro fuel
  induction fuel with
  | zero =>
    intro l hole hf st
    exact st.isMinHeap_of_root (by omega)
  | succ fuel ih =>
    intro l hole hf st
    unfold heapifyUpAux
    split_ifs with h
    · apply ih
      · unfold parent
        omega
      · exact st.swapUp hc h.1 h.2
    · by_cases h0 : hole = 0
      · exact st.isMinHeap_of_root h0
      · have hnot : ¬ 0 < cmp (l.getD (parent hole) default)
            (l.getD hole default) := fun hgt => h ⟨h0, hgt⟩
        exact st.isMinHeap_of_le (by unfold cmpLe; omega)

theorem insert_isMinHeap (hc : LawfulCmp cmp) {l : List α}
    (hh : IsMinHeap cmp l) (v : α) : IsMinHeap cmp (insert cmp l v) := by
  unfold insert heapifyUp
  have e : (l ++ [v]).length - 1 = l.length := by simp
  rw [e]
  exact heapifyUpAux_isMinHeap hc l.length (l ++ [v]) l.length (Nat.le_refl _)
    (siftUpState_initial hh v)

theorem insertAll_isMinHeap (hc : LawfulCmp cmp) :
    ∀ (vs : List α) (l : List α), IsMinHeap cmp l →
      IsMinHeap cmp (insertAll cmp l vs) := by
  intro vs
  induction vs with
  | nil => intro l hh; exact hh
  | cons v rest ih =>
    intro l hh
    exact ih _ (insert_isMinHeap hc hh v)

/-! ## The popped sequence is non-decreasing -/

theorem popSeq_cons (cmp : α → α → Int) (a : α) (t : List α) (k : ℕ) :
    popSeq cmp (a :: t) (k + 1) =
      (a :: t).getD 0 default :: popSeq cmp (popMin cmp (a :: t)).2 k := rfl

theorem popSeq_head (cmp : α → α → Int) :
    ∀ (k : ℕ) (l : List α) (y : α), (popSeq cmp l k).head? = some y →
      l ≠ [] ∧ y = l.getD 0 default := by
  intro k l y h
  cases k with
  | zero => simp [popSeq] at h
  | succ k =>
    cases l with
    | nil => simp [popSeq, popMin] at h
    | cons a t =>
      rw [popSeq_cons] at h
      simp only [List.head?_cons, Option.some_inj] at h
      exact ⟨by simp, h.symm⟩

theorem popSeq_chain (hc : LawfulCmp cmp) :
    ∀ (k : ℕ) (l : List α), IsMinHeap cmp l →
      List.Chain' (cmpLe cmp) (popSeq cmp l k) := by
  intro k
  induction k with
  | zero =>
    intro l hh
    simp [popSeq]
  | succ k ih =>
    intro l hh
    cases l with
    | nil => simp [popSeq, popMin]
    | cons a t =>
      rw [popSeq_cons, List.chain'_cons']
      refine ⟨?_, ih _ (popMin_snd_heap hc hh)⟩
      intro y hy
      obtain ⟨hne, rfl⟩ := popSeq_head cmp k _ y hy
      have hmem : (popMin cmp (a :: t)).2.getD 0 default ∈
          (popMin cmp (a :: t)).2 :=
        getD_mem _ (by
          cases hsnd : (popMin cmp (a :: t)).2 with
          | nil => exact absurd hsnd hne
          | cons b u => simp)
      exact root_le_mem hc hh _ (popMin_snd_subset _ _ hmem)

/-! ## C3: pop order -/

/-- C3 (counterexample, from the example in the source file itself):
after bulk-building from `[5,3,8,1]`, popping yields 1, but after an
intervening `insert(0)` the next pop yields 0, which precedes 1 under
the comparator, so the popped values of an arbitrary
insert/pop sequence need not be non-decreasing. -/
theorem minheap_interleaved_pops_decrease :
    (popMin numCmp (build numCmp [5, 3, 8, 1])).1 = some 1 ∧
    (popMin numCmp (insert numCmp
      (popMin numCmp (build numCmp [5, 3, 8, 1])).2 0)).1 = some 0 ∧
    ¬ cmpLe numCmp 1 0 :=
  ⟨by decide, by decide, by decide⟩

/-- C3 (amended): when every insert precedes every pop — bulk
construction from an initial array followed by further inserts, then
pops only — the popped values form a non-decreasing sequence under
any total-order comparator; in particular bulk-building from
`[5,3,8,1]` with the numeric comparator pops 1, 3, 5, 8. -/
theorem minheap_pops_sorted {α : Type*} [Inhabited α] {cmp : α → α → Int}
    (hc : LawfulCmp cmp) (init vs : List α) (k : ℕ) :
    List.Chain' (cmpLe cmp) (popSeq cmp (insertAll cmp (build cmp init) vs) k) ∧
    popSeq numCmp (build numCmp [5, 3, 8, 1]) 4 = [1, 3, 5, 8] :=
  ⟨popSeq_chain hc k _ (insertAll_isMinHeap hc vs _ (build_isMinHeap hc init)),
    by decide⟩

/-- C3 witness: the amended theorem applied to the concrete example. -/
theorem minheap_pops_sorted_witness :
    List.Chain' (cmpLe numCmp)
      (popSeq numCmp (insertAll numCmp (build numCmp [5, 3, 8, 1]) [0, 7]) 4) ∧
    popSeq numCmp (build numCmp [5, 3, 8, 1]) 4 = [1, 3, 5, 8] :=
  minheap_pops_sorted numCmp_lawful [5, 3, 8, 1] [0, 7] 4

/-! ## C9: popMin contract -/

/-- C9: on a non-empty heap `popMin` returns the root, which is
minimal under the comparator among all stored values; on the empty
heap it returns `none` without modifying the (empty) state, and the
model is a total function, so no exception is involved. -/
theorem popMin_contract {α : Type*} [Inhabited α] {cmp : α → α → Int}
    (hc : LawfulCmp cmp) (l : List α) (hh : IsMinHeap cmp l) (hne : l ≠ []) :
    (popMin cmp l).1 = some (l.getD 0 default) ∧
    (∀ x ∈ l, cmpLe cmp (l.getD 0 default) x) ∧
    popMin cmp ([] : List α) = (none, []) :=
  ⟨popMin_fst hne, root_le_mem hc hh, rfl⟩

/-- C9 witness: the contract applied to the concrete heap `[1, 3, 2]`. -/
theorem popMin_contract_witness :
    (popMin numCmp [1, 3, 2]).1 = some (([1, 3, 2] : List Int).getD 0 default) ∧
    (∀ x ∈ ([1, 3, 2] : List Int), cmpLe numCmp
      (([1, 3, 2] : List Int).getD 0 default) x) ∧
    popMin numCmp ([] : List Int) = (none, []) :=
  popMin_contract numCmp_lawful [1, 3, 2]
    (by
      intro child h1 h2 h3
      simp only [List.length_cons, List.length_nil] at h2
      interval_cases child <;> decide)
    (by simp)

end MinHeap

/-! ## Association-list lemmas for the Graph map -/

namespace Graph

variable {α : Type*} [DecidableEq α]

theorem lookup_mem {m : AdjList α} {k : α} {ns : List (GraphNode α)}
    (h : lookup m k = some ns) : (k, ns) ∈ m := by
  induction m with
  | nil => simp [lookup] at h
  | cons a rest ih =>
    obtain ⟨k', v⟩ := a
    simp only [lookup] at h
    split_ifs at h with hk
    · cases h
      subst hk
      exact List.mem_cons_self _ _
    · exact List.mem_cons_of_mem _ (ih h)

theorem lookup_setKey_self (m : AdjList α) (k : α) (v : List (GraphNode α)) :
    lookup (setKey m k v) k = some v := by
  induction m with
  | nil => simp [setKey, lookup]
  | cons a rest ih =>
    obtain ⟨k', v'⟩ := a
    simp only [setKey]
    split_ifs with hk
    · simp [lookup]
    · simp only [lookup, if_neg hk]
      exact ih

theorem lookup_setKey_ne (m : AdjList α) {j k : α} (v : List (GraphNode α))
    (h : j ≠ k) : lookup (setKey m k v) j = lookup m j := by
  induction m with
  | nil => simp [setKey, lookup, h]
  | cons a rest ih =>
    obtain ⟨k', v'⟩ := a
    simp only [setKey]
    split_ifs with hk
    · subst hk
      simp only [lookup, if_neg h]
    · simp only [lookup]
      split_ifs with hj
      · rfl
      · exact ih

theorem lookup_pushNeighbor_self {m : AdjList α} {k : α}
    {ns : List (GraphNode α)} (h : lookup m k = some ns) (gn : GraphNode α) :
    lookup (pushNeighbor m k gn) k = some (ns ++ [gn]) := by
  induction m with
  | nil => simp [lookup] at h
  | cons a rest ih =>
    obtain ⟨k', v'⟩ := a
    simp only [lookup] at h
    simp only [pushNeighbor]
    split_ifs at h ⊢ with hk
    · cases h
      simp [lookup, hk]
    · simp only [lookup, if_neg hk]
      exact ih h

theorem lookup_pushNeighbor_ne (m : AdjList α) {j k : α} (gn : GraphNode α)
    (h : j ≠ k) : lookup (pushNeighbor m k gn) j = lookup m j := by
  induction m with
  | nil => simp [pushNeighbor]
  | cons a rest ih =>
    obtain ⟨k', v'⟩ := a
    simp only [pushNeighbor]
    split_ifs with hk
    · subst hk
      simp only [lookup, if_neg h]
    · simp only [lookup]
      split_ifs with hj
      · rfl
      · exact ih

theorem lookup_addNode_self (m : AdjList α) (x : α) :
    ∃ ns, lookup (addNode m x).1 x = some ns := by
  unfold addNode
  split_ifs with h
  · simp only [hasNode, Option.isSome_iff_exists] at h
    obtain ⟨ns, hns⟩ := h
    exact ⟨ns, hns⟩
  · exact ⟨[], lookup_setKey_self m x []⟩

theorem lookup_addNode_of_some {m : AdjList α} {y : α}
    {ns : List (GraphNode α)} (x : α) (h : lookup m y = some ns) :
    lookup (addNode m x).1 y = some ns := by
  unfold addNode
  split_ifs with hx
  · exact h
  · by_cases hxy : y = x
    · subst hxy
      simp [hasNode, h] at hx
    · rw [lookup_setKey_ne m [] hxy]
      exact h

/-! ## C8: undirected addEdge symmetry -/

/-- C8: for every graph and every `addEdge(u, v, w)` with the
undirected flag at its default `true`, afterwards `getNeighbors(u)`
contains `{node: v, weight: w}` and `getNeighbors(v)` contains
`{node: u, weight: w}`, and both endpoints exist as nodes. -/
theorem addEdge_undirected_symmetric (m : AdjList α) (u v : α) (w : Int) :
    GraphNode.mk v w ∈ (getNeighbors (addEdge m u v w true) u).getD [] ∧
    GraphNode.mk u w ∈ (getNeighbors (addEdge m u v w true) v).getD [] ∧
    hasNode (addEdge m u v w true) u = true ∧
    hasNode (addEdge m u v w true) v = true := by
  unfold addEdge
  simp only [if_pos]
  obtain ⟨ns₀, h₀⟩ := lookup_addNode_self m u
  obtain ⟨nsv, hv⟩ := lookup_addNode_self (addNode m u).1 v
  have hu : lookup (addNode (addNode m u).1 v).1 u = some ns₀ :=
    lookup_addNode_of_some v h₀
  by_cases huv : v = u
  · subst huv
    have h3 : lookup
        (pushNeighbor (addNode (addNode m v).1 v).1 v (GraphNode.mk v w)) v =
        some (ns₀ ++ [GraphNode.mk v w]) := lookup_pushNeighbor_self hu _
    have h4 := lookup_pushNeighbor_self h3 (GraphNode.mk v w)
    unfold getNeighbors hasNode
    rw [h4]
    simp

  · have h3 : lookup
        (pushNeighbor (addNode (addNode m u).1 v).1 u (GraphNode.mk v w)) u =
        some (ns₀ ++ [GraphNode.mk v w]) := lookup_pushNeighbor_self hu _
    have h3v : lookup
        (pushNeighbor (addNode (addNode m u).1 v).1 u (GraphNode.mk v w)) v =
        some nsv := by
      rw [lookup_pushNeighbor_ne _ _ huv]
      exact hv
    have h4v := lookup_pushNeighbor_self h3v (GraphNode.mk u w)
    have h4u : lookup
        (pushNeighbor
          (pushNeighbor (addNode (addNode m u).1 v).1 u (GraphNode.mk v w)) v
          (GraphNode.mk u w)) u = some (ns₀ ++ [GraphNode.mk v w]) := by
      rw [lookup_pushNeighbor_ne _ _ (Ne.symm huv)]
      exact h3
    unfold getNeighbors hasNode
    rw [h4v, h4u]
    simp

/-! ## C10: falsy start nodes -/

/-- C10: both searches test the start node for JS truthiness, so a
falsy start (the number 0, the empty string) yields `none` regardless
of the adjacency list and the target. -/
theorem searches_none_of_falsy_start (m : AdjList α) (falsy : α → Bool)
    (s t : α) (h : falsy s = true) :
    DepthFirstSearch m falsy s t = none ∧
      BreathFirstSearch m falsy s t = none := by
  unfold DepthFirstSearch BreathFirstSearch
  rw [if_pos h, if_pos h]
  exact ⟨rfl, rfl⟩

/-- C10 witness: node `0` is present in the graph and equal to the
target, yet both searches return `none`. -/
theorem searches_none_of_falsy_start_witness :
    jsFalsyInt 0 = true ∧ hasNode zeroGraph 0 = true ∧
      DepthFirstSearch zeroGraph jsFalsyInt 0 0 = none ∧
      BreathFirstSearch zeroGraph jsFalsyInt 0 0 = none :=
  ⟨by decide, by decide,
    (searches_none_of_falsy_start zeroGraph jsFalsyInt 0 0 (by decide)).1,
    (searches_none_of_falsy_start zeroGraph jsFalsyInt 0 0 (by decide)).2⟩

/-! ## C2: Dijkstra rejects negative edge weights -/

variable [Inhabited α]

/-- C2: for every graph with at least one negative-weight edge and
every pair of nodes, `dijkstra` returns `none` immediately. -/
theorem dijkstra_none_of_negative_edge (m : AdjList α) (src dst : α)
    (h : ∃ e ∈ getAllEdges m, e.weight < 0) :
    dijkstra m src dst = none := by
  unfold dijkstra
  rw [if_pos]
  obtain ⟨e, he, hw⟩ := h
  simp only [List.any_eq_true]
  exact ⟨e, he, by simpa using hw⟩

/-- C2 witness: a concrete graph with a negative edge. -/
theorem dijkstra_none_of_negative_edge_witness :
    (∃ e ∈ getAllEdges negGraph, e.weight < 0) ∧
      dijkstra negGraph 0 1 = none :=
  ⟨by decide, dijkstra_none_of_negative_edge negGraph 0 1 (by decide)⟩

/-! ## C1: Dijkstra on the city map -/

theorem findWeight_mem_getAllEdges {m : AdjList α} {u v : α} {wt : Int}
    (h : findWeight m u v = some wt) : Edge.mk u v wt ∈ getAllEdges m := by
  unfold findWeight at h
  cases hl : lookup m u with
  | none => rw [hl] at h; simp at h
  | some ns =>
    rw [hl] at h
    simp only [Option.getD_some] at h
    cases hf : ns.find? (fun gn => gn.node = v) with
    | none => rw [hf] at h; simp at h
    | some gn =>
      rw [hf] at h
      have hwt : gn.weight = wt := by simpa using h
      have hmem := List.mem_of_find?_eq_some hf
      have hpred := List.find?_some hf
      have hnode : gn.node = v := by simpa using hpred
      unfold getAllEdges
      rw [List.mem_flatten]
      refine ⟨ns.map fun adjNode => Edge.mk u adjNode.node adjNode.weight, ?_, ?_⟩
      · exact List.mem_map_of_mem _ (lookup_mem hl)
      · rw [← hnode, ← hwt]
        exact List.mem_map_of_mem _ hmem

/-- Potential-function lower bound: when every recorded edge `(u, v)`
satisfies `φ v ≤ φ u + weight`, every walk from `u` to `last` has
total weight at least `φ last - φ u`. -/
theorem walkWeight_phi_le (m : AdjList α) (φ : α → Int)
    (hedge : ∀ e ∈ getAllEdges m, φ e.target ≤ φ e.source + e.weight) :
    ∀ (p : List α) (u : α) (w : Int) (lastN : α),
      walkWeight m (u :: p) = some w → (u :: p).getLast? = some lastN →
      φ lastN ≤ φ u + w := by
  intro p
  induction p with
  | nil =>
    intro u w lastN hw hl
    simp only [walkWeight] at hw
    cases hw
    simp at hl
    subst hl
    omega
  | cons v rest ih =>
    intro u w lastN hw hl
    simp only [walkWeight] at hw
    cases hfw : findWeight m u v with
    | none => rw [hfw] at hw; simp at hw
    | some wt =>
      rw [hfw] at hw
      cases hrec : walkWeight m (v :: rest) with
      | none => rw [hrec] at hw; simp at hw
      | some s =>
        rw [hrec] at hw
        simp only [Option.some_inj] at hw
        have hl' : (v :: rest).getLast? = some lastN := by
          rw [List.getLast?_cons_cons] at hl
          exact hl
        have h1 := ih v s lastN hrec hl'
        have h2 := hedge _ (findWeight_mem_getAllEdges hfw)
        simp only at h2
        omega

/-- C1 (counterexample to the stated weight): on the city map the
route returned for A to Z exists but its total edge weight is 13, not
11. -/
theorem dijkstra_cityMap_not_weight_eleven :
    dijkstra cityMap "A" "Z" = some ["A", "C", "B", "D", "E", "Z"] ∧
    walkWeight cityMap ["A", "C", "B", "D", "E", "Z"] = some 13 ∧
    ¬ walkWeight cityMap ["A", "C", "B", "D", "E", "Z"] = some 11 :=
  ⟨by decide, by decide, by decide⟩

/-- C1 (amended): `dijkstra(cityMap, "A", "Z")` returns the route
A, C, B, D, E, Z, a valid walk from A to Z of total edge weight 13,
and no walk from A to Z in the city map has smaller weight. -/
theorem dijkstra_cityMap_shortest :
    dijkstra cityMap "A" "Z" = some ["A", "C", "B", "D", "E", "Z"] ∧
    isValidWalk cityMap ["A", "C", "B", "D", "E", "Z"] = true ∧
    walkWeight cityMap ["A", "C", "B", "D", "E", "Z"] = some 13 ∧
    ∀ (p : List String) (w : Int), p.head? = some "A" →
      p.getLast? = some "Z" → walkWeight cityMap p = some w → 13 ≤ w := by
  refine ⟨by decide, by decide, by decide, ?_⟩
  intro p w hhead hlast hw
  cases p with
  | nil => simp at hhead
  | cons a p' =>
    simp only [List.head?_cons, Option.some_inj] at hhead
    subst hhead
    have hphi : ∀ e ∈ getAllEdges cityMap,
        cityPhi e.target ≤ cityPhi e.source + e.weight := by decide
    have h := walkWeight_phi_le cityMap cityPhi hphi p' "A" w "Z" hw hlast
    have hZ : cityPhi "Z" = 13 := by decide
    have hA : cityPhi "A" = 0 := by decide
    omega

/-- C1 witness: the minimality clause applied to the returned route
itself. -/
theorem dijkstra_cityMap_shortest_witness : (13 : Int) ≤ 13 :=
  dijkstra_cityMap_shortest.2.2.2 ["A", "C", "B", "D", "E", "Z"] 13
    (by decide) (by decide) (by decide)

end Graph

/-! ## C7: MinMaxStack -/

namespace MMStack

variable {α : Type*} [Inhabited α] {cmp : α → α → Int}

theorem getLast?_eq_getD {l : List α} (h : l ≠ []) :
    l.getLast? = some (l.getD (l.length - 1) default) := by
  have hlen : 0 < l.length := List.length_pos.mpr h
  rw [List.getLast?_eq_getElem?, List.getElem?_eq_getElem (by omega),
    MinHeap.getD_eq_of_lt l (by omega)]

theorem getD_append_last (l : List α) (w : α) :
    (l ++ [w]).getD l.length default = w := by
  rw [MinHeap.getD_eq_of_lt _ (by simp), List.getElem_append_right (Nat.le_refl _)]
  simp

/-- Extending the primary stack by `v` and the shadow stack by a
minimum of the whole new stack preserves the prefix invariant. -/
theorem prefixMin_extend (hc : LawfulCmp cmp) {stack minS : List α}
    (hlen : minS.length = stack.length) (hp : PrefixMin cmp stack minS)
    {v w : α} (hwmem : w ∈ stack ++ [v])
    (hwle : ∀ x ∈ stack ++ [v], cmpLe cmp w x) :
    PrefixMin cmp (stack ++ [v]) (minS ++ [w]) := by
  intro i hi
  simp only [List.length_append, List.length_singleton] at hi
  by_cases hilen : i < stack.length
  · have e1 : (minS ++ [w]).getD i default = minS.getD i default :=
      MinHeap.getD_append_left (by omega)
    have e2 : (stack ++ [v]).take (i + 1) = stack.take (i + 1) :=
      List.take_append_of_le_length (by omega)
    rw [e1, e2]
    exact hp i hilen
  · have hieq : i = stack.length := by omega
    subst hieq
    have e1 : (minS ++ [w]).getD stack.length default = w := by
      rw [← hlen]
      exact getD_append_last minS w
    have e2 : (stack ++ [v]).take (stack.length + 1) = stack ++ [v] := by
      have : stack.length + 1 = (stack ++ [v]).length := by simp
      rw [this, List.take_length]
    rw [e1, e2]
    exact ⟨hwmem, hwle⟩

theorem prefixMax_extend (hc : LawfulCmp cmp) {stack maxS : List α}
    (hlen : maxS.length = stack.length) (hp : PrefixMax cmp stack maxS)
    {v w : α} (hwmem : w ∈ stack ++ [v])
    (hwle : ∀ x ∈ stack ++ [v], cmpLe cmp x w) :
    PrefixMax cmp (stack ++ [v]) (maxS ++ [w]) := by
  intro i hi
  simp only [List.length_append, List.length_singleton] at hi
  by_cases hilen : i < stack.length
  · have e1 : (maxS ++ [w]).getD i default = maxS.getD i default :=
      MinHeap.getD_append_left (by omega)
    have e2 : (stack ++ [v]).take (i + 1) = stack.take (i + 1) :=
      List.take_append_of_le_length (by omega)
    rw [e1, e2]
    exact hp i hilen
  · have hieq : i = stack.length := by omega
    subst hieq
    have e1 : (maxS ++ [w]).getD stack.length default = w := by
      rw [← hlen]
      exact getD_append_last maxS w
    have e2 : (stack ++ [v]).take (stack.length + 1) = stack ++ [v] := by
      have : stack.length + 1 = (stack ++ [v]).length := by simp
      rw [this, List.take_length]
    rw [e1, e2]
    exact ⟨hwmem, hwle⟩

/-- The entry `updateMinStack` pushes is a minimum of the new primary
stack. -/
theorem prefixMin_push (hc : LawfulCmp cmp) {stack minS : List α}
    (hlen : minS.length = stack.length) (hp : PrefixMin cmp stack minS)
    (v : α) :
    PrefixMin cmp (stack ++ [v])
      (minS ++ [if minS.length = 0 ∨
          cmp v (minS.getLast?.getD default) < 0 then v
        else minS.getLast?.getD default]) := by
  by_cases hstack : stack = []
  · subst hstack
    have hminS : minS = [] := List.length_eq_zero.mp (by simpa using hlen)
    subst hminS
    have hcond : ([] : List α).length = 0 ∨
        cmp v (([] : List α).getLast?.getD default) < 0 := Or.inl rfl
    rw [if_pos hcond]
    intro i hi
    simp only [List.nil_append, List.length_singleton] at hi
    have hi0 : i = 0 := by omega
    subst hi0
    refine ⟨by simp, ?_⟩
    intro x hx
    simp only [List.nil_append, List.take_succ_cons, List.take_nil,
      List.mem_singleton] at hx
    subst hx
    exact hc.le_refl _
  · have hminS_ne : minS ≠ [] := by
      intro h
      subst h
      simp only [List.length_nil] at hlen
      exact hstack (List.length_eq_zero.mp hlen.symm)
    have hlen0 : minS.length ≠ 0 := fun h => hminS_ne (List.length_eq_zero.mp h)
    have hstack_pos : 0 < stack.length := List.length_pos.mpr hstack
    rw [getLast?_eq_getD hminS_ne]
    simp only [Option.getD_some]
    rw [hlen]
    obtain ⟨hm_mem, hm_le⟩ := hp (stack.length - 1) (by omega)
    have htake : stack.length - 1 + 1 = stack.length := by omega
    rw [htake, List.take_length] at hm_mem hm_le
    by_cases hvm : cmp v (minS.getD (stack.length - 1) default) < 0
    · rw [if_pos (Or.inr hvm)]
      apply prefixMin_extend hc hlen hp
      · simp
      · intro x hx
        rcases List.mem_append.mp hx with hx | hx
        · exact hc.le_trans _ _ _ (LawfulCmp.le_of_sign_lt hvm) (hm_le x hx)
        · rw [List.mem_singleton] at hx
          subst hx
          exact hc.le_refl x
    · rw [if_neg (by
        intro hor
        rcases hor with h0 | hlt
        · omega
        · exact hvm hlt)]
      apply prefixMin_extend hc hlen hp
      · exact List.mem_append.mpr (Or.inl hm_mem)
      · intro x hx
        rcases List.mem_append.mp hx with hx | hx
        · exact hm_le x hx
        · rw [List.mem_singleton] at hx
          subst hx
          exact hc.le_of_not_lt hvm

/-- The entry `updateMaxStack` pushes is a maximum of the new primary
stack. -/
theorem prefixMax_push (hc : LawfulCmp cmp) {stack maxS : List α}
    (hlen : maxS.length = stack.length) (hp : PrefixMax cmp stack maxS)
    (v : α) :
    PrefixMax cmp (stack ++ [v])
      (maxS ++ [if maxS.length = 0 ∨
          0 < cmp v (maxS.getLast?.getD default) then v
        else maxS.getLast?.getD default]) := by
  by_cases hstack : stack = []
  · subst hstack
    have hmaxS : maxS = [] := List.length_eq_zero.mp (by simpa using hlen)
    subst hmaxS
    have hcond : ([] : List α).length = 0 ∨
        0 < cmp v (([] : List α).getLast?.getD default) := Or.inl rfl
    rw [if_pos hcond]
    intro i hi
    simp only [List.nil_append, List.length_singleton] at hi
    have hi0 : i = 0 := by omega
    subst hi0
    refine ⟨by simp, ?_⟩
    intro x hx
    simp only [List.nil_append, List.take_succ_cons, List.take_nil,
      List.mem_singleton] at hx
    subst hx
    exact hc.le_refl _
  · have hmaxS_ne : maxS ≠ [] := by
      intro h
      subst h
      simp only [List.length_nil] at hlen
      exact hstack (List.length_eq_zero.mp hlen.symm)
    have hlen0 : maxS.length ≠ 0 := fun h => hmaxS_ne (List.length_eq_zero.mp h)
    have hstack_pos : 0 < stack.length := List.length_pos.mpr hstack
    rw [getLast?_eq_getD hmaxS_ne]
    simp only [Option.getD_some]
    rw [hlen]
    obtain ⟨hm_mem, hm_le⟩ := hp (stack.length - 1) (by omega)
    have htake : stack.length - 1 + 1 = stack.length := by omega
    rw [htake, List.take_length] at hm_mem hm_le
    by_cases hvm : 0 < cmp v (maxS.getD (stack.length - 1) default)
    · rw [if_pos (Or.inr hvm)]
      have hMv : cmpLe cmp (maxS.getD (stack.length - 1) default) v :=
        LawfulCmp.le_of_sign_lt ((hc.asym _ _).mp hvm)
      apply prefixMax_extend hc hlen hp
      · simp
      · intro x hx
        rcases List.mem_append.mp hx with hx | hx
        · exact hc.le_trans _ _ _ (hm_le x hx) hMv
        · rw [List.mem_singleton] at hx
          subst hx
          exact hc.le_refl x
    · rw [if_neg (by
        intro hor
        rcases hor with h0 | hlt
        · omega
        · exact hvm hlt)]
      apply prefixMax_extend hc hlen hp
      · exact List.mem_append.mpr (Or.inl hm_mem)
      · intro x hx
        rcases List.mem_append.mp hx with hx | hx
        · exact hm_le x hx
        · rw [List.mem_singleton] at hx
          subst hx
          exact Int.not_lt.mp hvm

/-- `push` leaves the primary stack extended by the value. -/
theorem push_stack (cmp : α → α → Int) (s : MMStack α) (v : α) :
    (push cmp s v).stack = s.stack ++ [v] := by
  unfold push updateMinStack updateMaxStack
  dsimp only
  split_ifs <;> rfl

/-- `push` extends the min shadow stack with the entry the code
computes from `getMin` of the already-extended stack. -/
theorem push_minStack (cmp : α → α → Int) (s : MMStack α) (v : α) :
    (push cmp s v).minStack = s.minStack ++
      [if s.minStack.length = 0 ∨
          cmp v (s.minStack.getLast?.getD default) < 0 then v
        else s.minStack.getLast?.getD default] := by
  unfold push updateMinStack updateMaxStack
  dsimp only
  have hg : getMin (⟨s.stack ++ [v], s.minStack, s.maxStack⟩ : MMStack α) =
      s.minStack.getLast? := by
    unfold getMin isEmptyS
    rw [if_neg]
    simp
  rw [hg]
  split_ifs <;> rfl

/-- `push` extends the max shadow stack likewise. -/
theorem push_maxStack (cmp : α → α → Int) (s : MMStack α) (v : α) :
    (push cmp s v).maxStack = s.maxStack ++
      [if s.maxStack.length = 0 ∨
          0 < cmp v (s.maxStack.getLast?.getD default) then v
        else s.maxStack.getLast?.getD default] := by
  unfold push updateMinStack updateMaxStack
  dsimp only
  have hg : getMin (⟨s.stack ++ [v], s.minStack, s.maxStack⟩ : MMStack α) =
      s.minStack.getLast? := by
    unfold getMin isEmptyS
    rw [if_neg]
    simp
  rw [hg]
  split_ifs <;> first | rfl | (simp_all [getMax, isEmptyS]; try omega)

theorem mminv_empty (cmp : α → α → Int) : MMInv cmp (empty : MMStack α) := by
  refine ⟨rfl, rfl, ?_, ?_⟩ <;>
    · intro i hi
      simp [empty] at hi

theorem mminv_push (hc : LawfulCmp cmp) {s : MMStack α} (h : MMInv cmp s)
    (v : α) : MMInv cmp (push cmp s v) := by
  obtain ⟨h1, h2, h3, h4⟩ := h
  refine ⟨?_, ?_, ?_, ?_⟩
  · rw [push_stack, push_minStack]
    simp [h1]
  · rw [push_stack, push_maxStack]
    simp [h2]
  · unfold PrefixMin
    rw [push_stack, push_minStack]
    exact prefixMin_push hc h1 h3 v
  · unfold PrefixMax
    rw [push_stack, push_maxStack]
    exact prefixMax_push hc h2 h4 v

theorem mminv_pop {s : MMStack α} (h : MMInv cmp s) : MMInv cmp (pop s).2 := by
  obtain ⟨h1, h2, h3, h4⟩ := h
  unfold pop
  cases hL : s.stack.getLast? with
  | none => exact ⟨h1, h2, h3, h4⟩
  | some v =>
    refine ⟨by simp [h1], by simp [h2], ?_, ?_⟩
    · intro i hi
      rw [List.length_dropLast] at hi
      have e1 : s.minStack.dropLast.getD i default = s.minStack.getD i default := by
        rw [MinHeap.getD_eq_of_lt _ (by rw [List.length_dropLast]; omega),
          List.getElem_dropLast, ← MinHeap.getD_eq_of_lt _ (by omega)]
      have e2 : s.stack.dropLast.take (i + 1) = s.stack.take (i + 1) := by
        rw [List.dropLast_eq_take, List.take_take]
        congr 1
        omega
      rw [e1, e2]
      exact h3 i (by omega)
    · intro i hi
      rw [List.length_dropLast] at hi
      have e1 : s.maxStack.dropLast.getD i default = s.maxStack.getD i default := by
        rw [MinHeap.getD_eq_of_lt _ (by rw [List.length_dropLast]; omega),
          List.getElem_dropLast, ← MinHeap.getD_eq_of_lt _ (by omega)]
      have e2 : s.stack.dropLast.take (i + 1) = s.stack.take (i + 1) := by
        rw [List.dropLast_eq_take, List.take_take]
        congr 1
        omega
      rw [e1, e2]
      exact h4 i (by omega)

theorem mminv_run (hc : LawfulCmp cmp) :
    ∀ (ops : List (Op α)) (s : MMStack α), MMInv cmp s →
      MMInv cmp (run cmp s ops) := by
  intro ops
  induction ops with
  | nil => intro s h; exact h
  | cons op rest ih =>
    intro s h
    cases op with
    | push v => exact ih _ (mminv_push hc h v)
    | pop => exact ih _ (mminv_pop h)

/-- From the invariant: `getMin`/`getMax` read the true extrema. -/
theorem mminv_getMin_getMax (hc : LawfulCmp cmp) {s : MMStack α}
    (h : MMInv cmp s) (hne : s.stack ≠ []) :
    ∃ m M, getMin s = some m ∧ getMax s = some M ∧ m ∈ s.stack ∧
      M ∈ s.stack ∧ ∀ x ∈ s.stack, cmpLe cmp m x ∧ cmpLe cmp x M := by
  obtain ⟨h1, h2, h3, h4⟩ := h
  have hpos : 0 < s.stack.length := List.length_pos.mpr hne
  have hminne : s.minStack ≠ [] := by
    intro hE
    rw [hE] at h1
    exact hne (List.length_eq_zero.mp h1.symm)
  have hmaxne : s.maxStack ≠ [] := by
    intro hE
    rw [hE] at h2
    exact hne (List.length_eq_zero.mp h2.symm)
  have hEmp : isEmptyS s = false := by
    unfold isEmptyS
    simpa using hne
  obtain ⟨hm_mem, hm_le⟩ := h3 (s.stack.length - 1) (by omega)
  obtain ⟨hM_mem, hM_le⟩ := h4 (s.stack.length - 1) (by omega)
  have htake : s.stack.length - 1 + 1 = s.stack.length := by omega
  rw [htake, List.take_length] at hm_mem hm_le hM_mem hM_le
  refine ⟨s.minStack.getD (s.stack.length - 1) default,
    s.maxStack.getD (s.stack.length - 1) default, ?_, ?_, ?_, ?_, ?_⟩
  · unfold getMin
    rw [hEmp]
    simp only [Bool.false_eq_true, if_false]
    rw [getLast?_eq_getD hminne, h1]
  · unfold getMax
    rw [hEmp]
    simp only [Bool.false_eq_true, if_false]
    rw [getLast?_eq_getD hmaxne, h2]
  · exact hm_mem
  · exact hM_mem
  · intro x hx
    exact ⟨hm_le x hx, hM_le x hx⟩

/-- C7: for every total-order comparator and every push/pop sequence,
after the operations the two shadow stacks have exactly the depth of
the primary stack, and `getMin()`/`getMax()` return the minimum and
maximum of the currently present elements (`none` when the stack is
empty). -/
theorem minmax_stack_correct {β : Type*} [Inhabited β] {c : β → β → Int}
    (hc : LawfulCmp c) (ops : List (Op β)) :
    (run c empty ops).minStack.length = (run c empty ops).stack.length ∧
    (run c empty ops).maxStack.length = (run c empty ops).stack.length ∧
    ((run c empty ops).stack = [] →
      getMin (run c empty ops) = none ∧ getMax (run c empty ops) = none) ∧
    ((run c empty ops).stack ≠ [] →
      ∃ m M, getMin (run c empty ops) = some m ∧
        getMax (run c empty ops) = some M ∧
        m ∈ (run c empty ops).stack ∧ M ∈ (run c empty ops).stack ∧
        ∀ x ∈ (run c empty ops).stack, cmpLe c m x ∧ cmpLe c x M) := by
  have hinv := mminv_run hc ops empty (mminv_empty c)
  refine ⟨hinv.1, hinv.2.1, ?_, ?_⟩
  · intro hE
    have : isEmptyS (run c empty ops) = true := by
      unfold isEmptyS
      simp [hE]
    unfold getMin getMax
    rw [this]
    exact ⟨rfl, rfl⟩
  · intro hne
    exact mminv_getMin_getMax hc hinv hne

/-- C7 witness: the push/pop sequence from the source example
(push 5, 3, 7, 4 then pop). -/
theorem minmax_stack_correct_witness :
    (run numCmp empty [Op.push 5, Op.push 3, Op.push 7, Op.push 4,
      Op.pop]).minStack.length =
      (run numCmp empty [Op.push 5, Op.push 3, Op.push 7, Op.push 4,
        Op.pop]).stack.length ∧
    (run numCmp empty [Op.push 5, Op.push 3, Op.push 7, Op.push 4,
      Op.pop]).maxStack.length =
      (run numCmp empty [Op.push 5, Op.push 3, Op.push 7, Op.push 4,
        Op.pop]).stack.length ∧
    ((run numCmp empty [Op.push 5, Op.push 3, Op.push 7, Op.push 4,
      Op.pop]).stack = [] →
      getMin (run numCmp empty [Op.push 5, Op.push 3, Op.push 7, Op.push 4,
        Op.pop]) = none ∧
      getMax (run numCmp empty [Op.push 5, Op.push 3, Op.push 7, Op.push 4,
        Op.pop]) = none) ∧
    ((run numCmp empty [Op.push 5, Op.push 3, Op.push 7, Op.push 4,
      Op.pop]).stack ≠ [] →
      ∃ m M, getMin (run numCmp empty [Op.push 5, Op.push 3, Op.push 7,
          Op.push 4, Op.pop]) = some m ∧
        getMax (run numCmp empty [Op.push 5, Op.push 3, Op.push 7, Op.push 4,
          Op.pop]) = some M ∧
        m ∈ (run numCmp empty [Op.push 5, Op.push 3, Op.push 7, Op.push 4,
          Op.pop]).stack ∧
        M ∈ (run numCmp empty [Op.push 5, Op.push 3, Op.push 7, Op.push 4,
          Op.pop]).stack ∧
        ∀ x ∈ (run numCmp empty [Op.push 5, Op.push 3, Op.push 7, Op.push 4,
          Op.pop]).stack, cmpLe numCmp m x ∧ cmpLe numCmp x M) :=
  minmax_stack_correct numCmp_lawful
    [Op.push 5, Op.push 3, Op.push 7, Op.push 4, Op.pop]

end MMStack

/-! ## C6: breadth-first search -/

namespace Graph

variable {α : Type*} [DecidableEq α]

theorem bfsStepTrace_fst_snd (path : List α) :
    ∀ (nbs : List (GraphNode α)) (visited : List α)
      (queue : List (α × List α)) (trace : List α),
      (bfsStepTrace visited queue path trace nbs).1 =
        (bfsStep visited queue path nbs).1 ∧
      (bfsStepTrace visited queue path trace nbs).2.1 =
        (bfsStep visited queue path nbs).2 := by
  intro nbs
  induction nbs with
  | nil => intro visited queue trace; exact ⟨rfl, rfl⟩
  | cons nb rest ih =>
    intro visited queue trace
    unfold bfsStepTrace bfsStep
    split_ifs with h
    · exact ih visited queue trace
    · exact ih _ _ _

theorem bfsAuxTrace_fst (m : AdjList α) (target : α) :
    ∀ (fuel : ℕ) (visited : List α) (queue : List (α × List α))
      (trace : List α),
      (bfsAuxTrace m target fuel visited queue trace).1 =
        bfsAux m target fuel visited queue := by
  intro fuel
  induction fuel with
  | zero => intro visited queue trace; rfl
  | succ fuel ih =>
    intro visited queue trace
    cases queue with
    | nil => rfl
    | cons np rest =>
      obtain ⟨currNode, path⟩ := np
      unfold bfsAuxTrace bfsAux
      split_ifs with h
      · rfl
      · obtain ⟨e1, e2⟩ := bfsStepTrace_fst_snd path
          ((lookup m currNode).getD []) visited rest trace
        dsimp only
        rw [e1, e2]
        exact ih _ _ _

theorem chain'_le_head :
    ∀ (l : List ℕ) (a : ℕ), List.Chain' (· ≤ ·) (a :: l) →
      ∀ b ∈ l, a ≤ b := by
  intro l
  induction l with
  | nil => intro a _ b hb; simp at hb
  | cons c l' ih =>
    intro a hchain b hb
    rw [List.chain'_cons] at hchain
    rcases List.mem_cons.mp hb with rfl | hb'
    · exact hchain.1
    · exact le_trans hchain.1 (ih c hchain.2 b hb')

theorem walk_closed (m : AdjList α) {visited : List α}
    (hcl : ∀ u ∈ visited, ∀ gn ∈ (lookup m u).getD [], gn.node ∈ visited) :
    ∀ (p : List α) (a b : α), IsBfsPath m a b p → a ∈ visited →
      b ∈ visited := by
  intro p
  induction p with
  | nil => intro a b hp _; exact absurd rfl hp.1
  | cons x rest ih =>
    intro a b hp ha
    obtain ⟨-, hhead, hlast, hchain⟩ := hp
    simp only [List.head?_cons, Option.some_inj] at hhead
    subst hhead
    cases rest with
    | nil =>
      simp only [List.getLast?_singleton, Option.some_inj] at hlast
      subst hlast
      exact ha
    | cons y rest' =>
      rw [List.chain'_cons] at hchain
      obtain ⟨gn, hgn, hgnode⟩ := hchain.1
      have hy : y ∈ visited := by
        rw [← hgnode]
        exact hcl _ ha gn hgn
      refine ih y b ⟨by simp, rfl, ?_, hchain.2⟩ hy
      rw [List.getLast?_cons_cons] at hlast
      exact hlast

theorem bfsStep_spec (path : List α) :
    ∀ (nbs : List (GraphNode α)) (v : List α) (q : List (α × List α)),
      ∃ fresh : List α,
        (bfsStep v q path nbs).1 = fresh.reverse ++ v ∧
        (bfsStep v q path nbs).2 = q ++ fresh.map (fun x => (x, path ++ [x])) ∧
        fresh.Nodup ∧
        (∀ x ∈ fresh, x ∉ v ∧ ∃ gn ∈ nbs, gn.node = x) ∧
        (∀ gn ∈ nbs, gn.node ∈ fresh ∨ gn.node ∈ v) := by
  intro nbs
  induction nbs with
  | nil =>
    intro v q
    exact ⟨[], by simp [bfsStep], by simp [bfsStep], List.nodup_nil,
      by simp, by simp⟩
  | cons nb rest ih =>
    intro v q
    unfold bfsStep
    split_ifs with h
    · obtain ⟨fresh, e1, e2, hnd, hprops, hcover⟩ := ih v q
      refine ⟨fresh, e1, e2, hnd, ?_, ?_⟩
      · intro x hx
        obtain ⟨hxv, gn, hgn, hgnode⟩ := hprops x hx
        exact ⟨hxv, gn, List.mem_cons_of_mem _ hgn, hgnode⟩
      · intro gn hgn
        rcases List.mem_cons.mp hgn with rfl | hgn'
        · exact Or.inr h
        · exact hcover gn hgn'
    · obtain ⟨fresh, e1, e2, hnd, hprops, hcover⟩ :=
        ih (nb.node :: v) (Queue.enqueue q (nb.node, path ++ [nb.node]))
      refine ⟨nb.node :: fresh, ?_, ?_, ?_, ?_, ?_⟩
      · rw [e1]
        simp [List.append_assoc]
      · rw [e2]
        simp [Queue.enqueue, List.append_assoc]
      · refine List.nodup_cons.mpr ⟨?_, hnd⟩
        intro hmem
        exact (hprops _ hmem).1 (List.mem_cons_self _ _)
      · intro x hx
        rcases List.mem_cons.mp hx with rfl | hx'
        · exact ⟨h, nb, List.mem_cons_self _ _, rfl⟩
        · obtain ⟨hxv, gn, hgn, hgnode⟩ := hprops x hx'
          exact ⟨fun hv => hxv (List.mem_cons_of_mem _ hv), gn,
            List.mem_cons_of_mem _ hgn, hgnode⟩
      · intro gn hgn
        rcases List.mem_cons.mp hgn with rfl | hgn'
        · exact Or.inl (List.mem_cons_self _ _)
        · rcases hcover gn hgn' with hf | hv
          · exact Or.inl (List.mem_cons_of_mem _ hf)
          · rcases List.mem_cons.mp hv with heq | hv'
            · exact Or.inl (heq ▸ List.mem_cons_self _ _)
            · exact Or.inr hv'

theorem countUnvisited_cons {U : List α} (hU : U.Nodup) {x : α}
    {v : List α} (hxU : x ∈ U) (hxv : x ∉ v) :
    countUnvisited U (x :: v) + 1 = countUnvisited U v := by
  induction U with
  | nil => simp at hxU
  | cons y U' ih =>
    rw [List.nodup_cons] at hU
    unfold countUnvisited at *
    by_cases hyx : y = x
    · subst hyx
      have hcongr : U'.filter (fun z => !(decide (z ∈ y :: v))) =
          U'.filter (fun z => !(decide (z ∈ v))) := by
        apply List.filter_congr
        intro z hz
        have hzy : z ≠ y := fun hzy => hU.1 (hzy ▸ hz)
        simp [List.mem_cons, hzy]
      simp only [List.filter_cons]
      have h1 : (!(decide (y ∈ y :: v))) = false := by simp
      have h2 : (!(decide (y ∈ v))) = true := by simp [hxv]
      rw [h1, h2, hcongr]
      simp
    · have hxU' : x ∈ U' := by
        rcases List.mem_cons.mp hxU with heq | h
        · exact absurd heq.symm hyx
        · exact h
      have hrec := ih hU.2 hxU'
      simp only [List.filter_cons]
      have hsame : (!(decide (y ∈ x :: v))) = (!(decide (y ∈ v))) := by
        simp [List.mem_cons, hyx]
      rw [hsame]
      split_ifs with hcond
      · simp only [List.length_cons]
        omega
      · omega

theorem countUnvisited_fresh {U : List α} (hU : U.Nodup) :
    ∀ (fresh v : List α), fresh.Nodup →
      (∀ x ∈ fresh, x ∉ v ∧ x ∈ U) →
      countUnvisited U (fresh.reverse ++ v) + fresh.length =
        countUnvisited U v := by
  intro fresh
  induction fresh with
  | nil => intro v _ _; simp
  | cons f fresh' ih =>
    intro v hnd hprops
    rw [List.nodup_cons] at hnd
    have e : (f :: fresh').reverse ++ v = fresh'.reverse ++ (f :: v) := by
      simp [List.append_assoc]
    rw [e]
    have h1 := ih (f :: v) hnd.2 (by
      intro x hx
      refine ⟨?_, (hprops x (List.mem_cons_of_mem _ hx)).2⟩
      intro hmem
      rcases List.mem_cons.mp hmem with rfl | hv
      · exact hnd.1 hx
      · exact (hprops x (List.mem_cons_of_mem _ hx)).1 hv)
    have h2 := countUnvisited_cons hU (hprops f (List.mem_cons_self _ _)).2
      (hprops f (List.mem_cons_self _ _)).1
    simp only [List.length_cons]
    omega

theorem map_const_getLast? (c : ℕ) :
    ∀ (l : List α) (x : α), ((x :: l).map fun _ => c).getLast? = some c := by
  intro l
  induction l with
  | nil => intro x; rfl
  | cons y t ih =>
    intro x
    rw [show ((x :: y :: t).map fun _ => c) = c :: c :: (t.map fun _ => c)
      from rfl, List.getLast?_cons_cons]
    exact ih y

theorem chain'_const (c : ℕ) :
    ∀ (l : List α), List.Chain' (· ≤ ·) (l.map fun _ => c) := by
  intro l
  induction l with
  | nil => exact List.chain'_nil
  | cons x t ih =>
    refine List.chain'_cons'.mpr ⟨?_, ih⟩
    intro y hy
    cases t with
    | nil => simp at hy
    | cons z t2 =>
      have hyc : c = y := by simpa using hy
      show c ≤ y
      omega

theorem map_snd_length (path : List α) :
    ∀ (l : List α), ((l.map (fun x => (x, path ++ [x]))).map
      (fun np : α × List α => np.2.length)) =
      l.map (fun _ => path.length + 1) := by
  intro l
  induction l with
  | nil => rfl
  | cons x t ih =>
    simp only [List.map_cons, ih, List.length_append, List.length_singleton]

theorem map_fst_pair (path : List α) :
    ∀ (l : List α), ((l.map (fun x => (x, path ++ [x]))).map
      (fun np : α × List α => np.1)) = l := by
  intro l
  induction l with
  | nil => rfl
  | cons x t ih => simp only [List.map_cons, ih]

theorem walk_extend (m : AdjList α) {s c x : α} {p : List α}
    (hp : IsBfsPath m s c p) (hadj : adjacentB m c x) :
    IsBfsPath m s x (p ++ [x]) := by
  obtain ⟨hne, hhead, hlast, hchain⟩ := hp
  refine ⟨by simp, ?_, List.getLast?_concat p, ?_⟩
  · rw [List.head?_append_of_ne_nil _ hne]
    exact hhead
  · rw [List.chain'_append]
    refine ⟨hchain, List.chain'_singleton _, ?_⟩
    intro a ha b hb
    rw [hlast] at ha
    simp only [Option.mem_def, Option.some_inj] at ha
    simp only [List.head?_cons, Option.mem_def, Option.some_inj] at hb
    subst ha
    subst hb
    exact hadj

theorem walk_split (m : AdjList α) {s w : α} {q : List α}
    (hq : IsBfsPath m s w q) (hlen : 2 ≤ q.length) :
    ∃ (q₀ : List α) (w₁ : α), q = q₀ ++ [w] ∧ IsBfsPath m s w₁ q₀ ∧
      adjacentB m w₁ w ∧ q₀.length + 1 = q.length := by
  obtain ⟨hne, hhead, hlast, hchain⟩ := hq
  have hlen₀ : q.dropLast.length = q.length - 1 := List.length_dropLast q
  have hq₀ne : q.dropLast ≠ [] := by
    intro h
    rw [h] at hlen₀
    simp at hlen₀
    omega
  have hw : q.getLast hne = w := by
    rw [List.getLast?_eq_getLast q hne] at hlast
    exact Option.some_inj.mp hlast
  have hdecomp : q = q.dropLast ++ [w] := by
    conv_lhs => rw [← List.dropLast_append_getLast hne]
    rw [hw]
  refine ⟨q.dropLast, q.dropLast.getLast hq₀ne, hdecomp,
    ⟨hq₀ne, ?_, List.getLast?_eq_getLast _ hq₀ne,
      List.Chain'.prefix hchain (List.dropLast_prefix q)⟩, ?_, by omega⟩
  · rw [hdecomp, List.head?_append_of_ne_nil _ hq₀ne] at hhead
    exact hhead
  · have hch := hchain
    rw [hdecomp, List.chain'_append] at hch
    exact hch.2.2 _ (List.getLast?_eq_getLast _ hq₀ne) w rfl

theorem walk_length_one {m : AdjList α} {s w : α} {q : List α}
    (hq : IsBfsPath m s w q) (h1 : q.length = 1) : w = s := by
  obtain ⟨-, hhead, hlast, -⟩ := hq
  cases q with
  | nil => simp at h1
  | cons x t =>
    cases t with
    | nil =>
      simp only [List.head?_cons, Option.some_inj] at hhead
      simp only [List.getLast?_singleton, Option.some_inj] at hlast
      rw [← hlast]
      exact hhead
    | cons y t2 => simp at h1

theorem bfsInv_init (m : AdjList α) (s t : α) :
    BfsInv m s t [s] [(s, [s])] := by
  refine ⟨List.mem_singleton.mpr rfl, ?_, by simp, ?_, ?_, by simp, ?_, ?_,
    ?_, ?_⟩
  · intro np hnp
    rw [List.mem_singleton] at hnp
    subst hnp
    exact List.mem_singleton.mpr rfl
  · intro np hnp
    rw [List.mem_singleton] at hnp
    subst hnp
    exact ⟨List.cons_ne_nil _ _, rfl, rfl, List.chain'_singleton _⟩
  · intro np hnp q hq
    rw [List.mem_singleton] at hnp
    subst hnp
    have hpos := List.length_pos.mpr hq.1
    simp only [List.length_singleton]
    omega
  · intro a ha b hb
    simp at ha hb
    omega
  · intro u hu hnq gn hgn
    rw [List.mem_singleton] at hu
    exact absurd hu.symm (hnq (s, [s]) (List.mem_singleton.mpr rfl))
  · intro ht
    rw [List.mem_singleton] at ht
    exact ⟨(s, [s]), List.mem_singleton.mpr rfl, ht.symm⟩
  · intro w hw q hq a ha
    simp at ha
    subst ha
    by_contra hlt
    push_neg at hlt
    have hpos := List.length_pos.mpr hq.1
    have h1 : q.length = 1 := by omega
    have hws := walk_length_one hq h1
    rw [List.mem_singleton] at hw
    exact hw hws

theorem bfsInv_empty_unreachable (m : AdjList α) {s t : α} {visited : List α}
    (inv : BfsInv m s t visited []) : ∀ q, ¬ IsBfsPath m s t q := by
  intro q hq
  have hcl : ∀ u ∈ visited, ∀ gn ∈ (lookup m u).getD [], gn.node ∈ visited := by
    intro u hu gn hgn
    exact inv.closed u hu (by intro np hnp; simp at hnp) gn hgn
  have ht : t ∈ visited := walk_closed m hcl q s t hq inv.vis_start
  obtain ⟨np, hnp, -⟩ := inv.t_pending ht
  simp at hnp

theorem bfs_far_aux (m : AdjList α) {s t : α} {visited : List α}
    {cur : α} {path : List α} {rest : List (α × List α)}
    (inv : BfsInv m s t visited ((cur, path) :: rest))
    (hallrest : ∀ np ∈ rest, path.length + 1 ≤ np.2.length)
    {w : α} (hwv : w ∉ visited)
    (hwadj : ∀ gn ∈ (lookup m cur).getD [], gn.node ≠ w)
    {q : List α} (hq : IsBfsPath m s w q) :
    path.length + 2 ≤ q.length := by
  have hbase : path.length + 1 ≤ q.length :=
    inv.unvis_far w hwv q hq path.length rfl
  by_contra hlt
  push_neg at hlt
  have hqlen : q.length = path.length + 1 := by omega
  have hL : 0 < path.length :=
    List.length_pos.mpr (inv.q_path _ (List.mem_cons_self _ _)).1
  have h2 : 2 ≤ q.length := by omega
  obtain ⟨q₀, w₁, hdecomp, hq₀, hadj, hq₀len⟩ := walk_split m hq h2
  by_cases hw₁v : w₁ ∈ visited
  · by_cases hw₁q : ∀ np ∈ (cur, path) :: rest, np.1 ≠ w₁
    · obtain ⟨gn, hgn, hgnode⟩ := hadj
      have hwvis : w ∈ visited := hgnode ▸ inv.closed w₁ hw₁v hw₁q gn hgn
      exact hwv hwvis
    · push_neg at hw₁q
      obtain ⟨np, hnp, hnp1⟩ := hw₁q
      rcases List.mem_cons.mp hnp with rfl | hr
      · have hcw : cur = w₁ := hnp1
        subst hcw
        obtain ⟨gn, hgn, hgnode⟩ := hadj
        exact hwadj gn hgn hgnode
      · have h1 := hallrest np hr
        have h2x : np.2.length ≤ q₀.length := by
          refine inv.q_min np (List.mem_cons_of_mem _ hr) q₀ ?_
          rw [hnp1]
          exact hq₀
        omega
  · have := inv.unvis_far w₁ hw₁v q₀ hq₀ path.length rfl
    omega

theorem bfsStep_measure (m : AdjList α) (cur : α) (path : List α)
    (visited : List α) (rest : List (α × List α)) :
    countUnvisited (bfsUniverse m).dedup
        (bfsStep visited rest path ((lookup m cur).getD [])).1 +
      (bfsStep visited rest path ((lookup m cur).getD [])).2.length =
      countUnvisited (bfsUniverse m).dedup visited + rest.length := by
  obtain ⟨fresh, e1, e2, hnd, hprops, hcover⟩ :=
    bfsStep_spec path ((lookup m cur).getD []) visited rest
  rw [e1, e2]
  have hsub : ∀ x ∈ fresh, x ∉ visited ∧ x ∈ (bfsUniverse m).dedup := by
    intro x hx
    obtain ⟨hxv, gn, hgn, hgnode⟩ := hprops x hx
    refine ⟨hxv, List.mem_dedup.mpr ?_⟩
    cases hl : lookup m cur with
    | none => rw [hl] at hgn; simp at hgn
    | some nbs =>
      rw [hl] at hgn
      simp only [Option.getD_some] at hgn
      have hmem : (cur, nbs) ∈ m := lookup_mem hl
      unfold bfsUniverse
      refine List.mem_flatten.mpr ⟨cur :: nbs.map (fun gnn => gnn.node), ?_, ?_⟩
      · exact List.mem_map.mpr ⟨(cur, nbs), hmem, rfl⟩
      · rw [← hgnode]
        exact List.mem_cons_of_mem _ (List.mem_map_of_mem _ hgn)
  have hcount := countUnvisited_fresh (List.nodup_dedup _) fresh visited hnd hsub
  rw [List.length_append, List.length_map]
  omega

theorem bfsInv_step (m : AdjList α) {s t : α} {visited : List α}
    {cur : α} {path : List α} {rest : List (α × List α)}
    (inv : BfsInv m s t visited ((cur, path) :: rest)) (hct : cur ≠ t) :
    BfsInv m s t (bfsStep visited rest path ((lookup m cur).getD [])).1
      (bfsStep visited rest path ((lookup m cur).getD [])).2 := by
  obtain ⟨fresh, e1, e2, hnd, hprops, hcover⟩ :=
    bfsStep_spec path ((lookup m cur).getD []) visited rest
  rw [e1, e2]
  have hcurpath : IsBfsPath m s cur path :=
    inv.q_path _ (List.mem_cons_self _ _)
  have hfreshpath : ∀ x ∈ fresh, IsBfsPath m s x (path ++ [x]) := by
    intro x hx
    obtain ⟨hxv, gn, hgn, hgnode⟩ := hprops x hx
    exact walk_extend m hcurpath ⟨gn, hgn, hgnode⟩
  have hfreshmin : ∀ x ∈ fresh, ∀ q, IsBfsPath m s x q →
      path.length + 1 ≤ q.length := by
    intro x hx q hq
    exact inv.unvis_far x (hprops x hx).1 q hq path.length rfl
  have hchain_old : List.Chain' (· ≤ ·)
      (path.length :: rest.map (fun np => np.2.length)) := inv.q_chain
  have hchain_rest : List.Chain' (· ≤ ·) (rest.map (fun np => np.2.length)) :=
    (List.chain'_cons'.mp hchain_old).2
  have hle_head : ∀ b ∈ rest.map (fun np => np.2.length), path.length ≤ b :=
    chain'_le_head _ _ hchain_old
  have hlast_le : ∀ b ∈ (rest.map (fun np => np.2.length)).getLast?,
      b ≤ path.length + 1 := by
    intro b hb
    cases hrl : rest.map (fun np => np.2.length) with
    | nil => rw [hrl] at hb; simp at hb
    | cons r tail =>
      refine inv.q_spread path.length rfl b ?_
      simp only [Option.mem_def] at hb ⊢
      rw [show ((cur, path) :: rest).map (fun np => np.2.length) =
        path.length :: rest.map (fun np => np.2.length) from rfl, hrl,
        List.getLast?_cons_cons, ← hrl]
      exact hb
  have hmap : ((rest ++ fresh.map (fun x => (x, path ++ [x]))).map
      (fun np => np.2.length)) =
      rest.map (fun np => np.2.length) ++
        fresh.map (fun _ => path.length + 1) := by
    rw [List.map_append, map_snd_length path fresh]
  refine ⟨?_, ?_, ?_, ?_, ?_, ?_, ?_, ?_, ?_, ?_⟩
  · exact List.mem_append_right _ inv.vis_start
  · intro np hnp
    rcases List.mem_append.mp hnp with hr | hf
    · exact List.mem_append_right _ (inv.q_sub np (List.mem_cons_of_mem _ hr))
    · obtain ⟨x, hx, rfl⟩ := List.mem_map.mp hf
      exact List.mem_append_left _ (List.mem_reverse.mpr hx)
  · rw [List.map_append, map_fst_pair path fresh]
    refine List.Nodup.append ?_ hnd ?_
    · have hold : (cur :: rest.map (fun np => np.1)).Nodup := inv.q_nodup
      exact (List.nodup_cons.mp hold).2
    · rw [List.disjoint_left]
      intro a ha haf
      obtain ⟨np, hnp, rfl⟩ := List.mem_map.mp ha
      exact (hprops _ haf).1 (inv.q_sub np (List.mem_cons_of_mem _ hnp))
  · intro np hnp
    rcases List.mem_append.mp hnp with hr | hf
    · exact inv.q_path np (List.mem_cons_of_mem _ hr)
    · obtain ⟨x, hx, rfl⟩ := List.mem_map.mp hf
      exact hfreshpath x hx
  · intro np hnp q hq
    rcases List.mem_append.mp hnp with hr | hf
    · exact inv.q_min np (List.mem_cons_of_mem _ hr) q hq
    · obtain ⟨x, hx, rfl⟩ := List.mem_map.mp hf
      have h := hfreshmin x hx q hq
      dsimp only
      simp only [List.length_append, List.length_singleton]
      omega
  · rw [hmap, List.chain'_append]
    refine ⟨hchain_rest, chain'_const _ _, ?_⟩
    intro a ha b hb
    have hb2 : b = path.length + 1 := by
      cases fresh with
      | nil => simp at hb
      | cons f fr => symm; simpa using hb
    rw [hb2]
    exact hlast_le a ha
  · rw [hmap]
    intro a ha b hb
    cases fresh with
    | nil =>
      simp only [List.map_nil, List.append_nil] at ha hb
      have hb2 := hlast_le b hb
      have ha2 := hle_head a (List.mem_of_mem_head? ha)
      omega
    | cons f fr =>
      have hb2 : b = path.length + 1 := by
        rw [List.getLast?_append_of_ne_nil _ (by simp),
          map_const_getLast? _ fr f] at hb
        symm
        simpa using hb
      cases hR : rest.map (fun np => np.2.length) with
      | nil =>
        rw [hR] at ha
        simp only [List.nil_append] at ha
        have ha2 : a = path.length + 1 := by symm; simpa using ha
        omega
      | cons r tail =>
        rw [hR] at ha
        have ha2 : a = r := by symm; simpa using ha
        have hrL : path.length ≤ r := by
          refine hle_head r ?_
          rw [hR]
          exact List.mem_cons_self _ _
        omega
  · intro u hu hnq gn hgn
    rcases List.mem_append.mp hu with hufr | huv
    · exfalso
      have hufresh : u ∈ fresh := List.mem_reverse.mp hufr
      exact hnq (u, path ++ [u])
        (List.mem_append_right _ (List.mem_map.mpr ⟨u, hufresh, rfl⟩)) rfl
    · by_cases hcu : u = cur
      · subst hcu
        rcases hcover gn hgn with hf | hv
        · exact List.mem_append_left _ (List.mem_reverse.mpr hf)
        · exact List.mem_append_right _ hv
      · have hnone : ∀ np ∈ (cur, path) :: rest, np.1 ≠ u := by
          intro np hnp
          rcases List.mem_cons.mp hnp with rfl | hr
          · exact fun h2 => hcu h2.symm
          · exact hnq np (List.mem_append_left _ hr)
        exact List.mem_append_right _ (inv.closed u huv hnone gn hgn)
  · intro ht
    rcases List.mem_append.mp ht with htf | htv
    · exact ⟨(t, path ++ [t]), List.mem_append_right _
        (List.mem_map.mpr ⟨t, List.mem_reverse.mp htf, rfl⟩), rfl⟩
    · obtain ⟨np, hnp, hnp1⟩ := inv.t_pending htv
      rcases List.mem_cons.mp hnp with rfl | hr
      · exact absurd hnp1 hct
      · exact ⟨np, List.mem_append_left _ hr, hnp1⟩
  · rw [hmap]
    intro w hw q hq a ha
    have hwv : w ∉ visited := fun h => hw (List.mem_append_right _ h)
    have hwf : w ∉ fresh := fun h =>
      hw (List.mem_append_left _ (List.mem_reverse.mpr h))
    have hbase : path.length + 1 ≤ q.length :=
      inv.unvis_far w hwv q hq path.length rfl
    have hwadj : ∀ gn ∈ (lookup m cur).getD [], gn.node ≠ w := by
      intro gn hgn heq
      rcases hcover gn hgn with hf | hv
      · exact hwf (heq ▸ hf)
      · exact hwv (heq ▸ hv)
    cases hR : rest.map (fun np => np.2.length) with
    | nil =>
      cases fresh with
      | nil => rw [hR] at ha; simp at ha
      | cons f fr =>
        rw [hR] at ha
        simp only [List.nil_append] at ha
        have ha2 : a = path.length + 1 := by symm; simpa using ha
        have hrest : rest = [] := List.map_eq_nil_iff.mp hR
        have hallrest : ∀ np ∈ rest, path.length + 1 ≤ np.2.length := by
          rw [hrest]
          intro np hnp
          simp at hnp
        have hfar := bfs_far_aux m inv hallrest hwv hwadj hq
        omega
    | cons r tail =>
      rw [hR] at ha
      have ha2 : a = r := by symm; simpa using ha
      have hrL : path.length ≤ r := by
        refine hle_head r ?_
        rw [hR]
        exact List.mem_cons_self _ _
      by_cases hreq : r = path.length + 1
      · have hch : List.Chain' (· ≤ ·) (r :: tail) := hR ▸ hchain_rest
        have hallrest : ∀ np ∈ rest, path.length + 1 ≤ np.2.length := by
          intro np hnp
          have hmem : np.2.length ∈ rest.map (fun np => np.2.length) :=
            List.mem_map_of_mem _ hnp
          rw [hR] at hmem
          rcases List.mem_cons.mp hmem with heq | htail
          · omega
          · have hle := chain'_le_head tail r hch _ htail
            omega
        have hfar := bfs_far_aux m inv hallrest hwv hwadj hq
        omega
      · have hr_le : r ≤ path.length + 1 := by
          have hne : (r :: tail) ≠ [] := List.cons_ne_nil _ _
          have hch : List.Chain' (· ≤ ·) (r :: tail) := hR ▸ hchain_rest
          have h1 : r ≤ (r :: tail).getLast hne := by
            rcases List.mem_cons.mp (List.getLast_mem hne) with heq | htail
            · exact le_of_eq heq.symm
            · exact chain'_le_head tail r hch _ htail
          have h2 : (r :: tail).getLast hne ≤ path.length + 1 := by
            refine hlast_le _ ?_
            rw [hR]
            exact List.getLast?_eq_getLast _ hne
          omega
        omega

theorem bfsStepTrace_spec (path : List α) :
    ∀ (nbs : List (GraphNode α)) (v : List α) (q : List (α × List α))
      (tr : List α),
      ∃ fresh : List α,
        (bfsStepTrace v q path tr nbs).1 = fresh.reverse ++ v ∧
        (bfsStepTrace v q path tr nbs).2.2 = tr ++ fresh ∧
        fresh.Nodup ∧ (∀ x ∈ fresh, x ∉ v) := by
  intro nbs
  induction nbs with
  | nil =>
    intro v q tr
    exact ⟨[], rfl, by simp [bfsStepTrace], List.nodup_nil, by simp⟩
  | cons nb rest ih =>
    intro v q tr
    unfold bfsStepTrace
    split_ifs with h
    · exact ih v q tr
    · obtain ⟨fresh, e1, e2, hnd, hprops⟩ :=
        ih (nb.node :: v) (Queue.enqueue q (nb.node, path ++ [nb.node]))
          (tr ++ [nb.node])
      refine ⟨nb.node :: fresh, ?_, ?_, ?_, ?_⟩
      · rw [e1]
        simp [List.append_assoc]
      · rw [e2]
        simp
      · refine List.nodup_cons.mpr ⟨?_, hnd⟩
        intro hmem
        exact (hprops _ hmem) (List.mem_cons_self _ _)
      · intro x hx
        rcases List.mem_cons.mp hx with rfl | hx2
        · exact h
        · exact fun hv => (hprops x hx2) (List.mem_cons_of_mem _ hv)

theorem bfsAuxTrace_nodup (m : AdjList α) (target : α) :
    ∀ (fuel : ℕ) (visited : List α) (queue : List (α × List α))
      (trace : List α), trace.Nodup → (∀ x ∈ trace, x ∈ visited) →
      (bfsAuxTrace m target fuel visited queue trace).2.Nodup := by
  intro fuel
  induction fuel with
  | zero => intro visited queue trace hnd hsub; exact hnd
  | succ fuel ih =>
    intro visited queue trace hnd hsub
    cases queue with
    | nil => exact hnd
    | cons np rest =>
      obtain ⟨cur, path⟩ := np
      unfold bfsAuxTrace
      split_ifs with h
      · exact hnd
      · obtain ⟨fresh, e1, e2, hfnd, hprops⟩ :=
          bfsStepTrace_spec path ((lookup m cur).getD []) visited rest trace
        dsimp only
        rw [e1, e2]
        refine ih _ _ _ ?_ ?_
        · refine List.Nodup.append hnd hfnd ?_
          rw [List.disjoint_left]
          intro a ha haf
          exact (hprops a haf) (hsub a ha)
        · intro x hx
          rcases List.mem_append.mp hx with htr | hfr
          · exact List.mem_append_right _ (hsub x htr)
          · exact List.mem_append_left _ (List.mem_reverse.mpr hfr)

theorem countUnvisited_le (U v : List α) : countUnvisited U v ≤ U.length :=
  List.length_filter_le _ _

theorem bfsAux_correct (m : AdjList α) (s t : α) :
    ∀ (fuel : ℕ) (visited : List α) (queue : List (α × List α)),
      queue.length + countUnvisited (bfsUniverse m).dedup visited ≤ fuel →
      BfsInv m s t visited queue →
      (∀ p, bfsAux m t fuel visited queue = some p →
        IsBfsPath m s t p ∧ ∀ q, IsBfsPath m s t q → p.length ≤ q.length) ∧
      (bfsAux m t fuel visited queue = none → ∀ q, ¬ IsBfsPath m s t q) := by
  intro fuel
  induction fuel with
  | zero =>
    intro visited queue hfuel inv
    have hq0 : queue = [] := by
      cases queue with
      | nil => rfl
      | cons np rest =>
        exfalso
        simp only [List.length_cons] at hfuel
        omega
    subst hq0
    refine ⟨?_, ?_⟩
    · intro p hp
      simp [bfsAux] at hp
    · intro hn q hq
      exact bfsInv_empty_unreachable m inv q hq
  | succ fuel ih =>
    intro visited queue hfuel inv
    cases queue with
    | nil =>
      refine ⟨?_, ?_⟩
      · intro p hp
        simp [bfsAux] at hp
      · intro hn q hq
        exact bfsInv_empty_unreachable m inv q hq
    | cons np rest =>
      obtain ⟨cur, path⟩ := np
      by_cases hct : cur = t
      · subst hct
        refine ⟨?_, ?_⟩
        · intro p hp
          have hp2 : p = path := by
            unfold bfsAux at hp
            rw [if_pos rfl] at hp
            exact (Option.some_inj.mp hp).symm
          subst hp2
          exact ⟨inv.q_path _ (List.mem_cons_self _ _),
            fun q hq => inv.q_min _ (List.mem_cons_self _ _) q hq⟩
        · intro hn q hq
          unfold bfsAux at hn
          rw [if_pos rfl] at hn
          simp at hn
      · have hstep := bfsInv_step m inv hct
        have hmeas := bfsStep_measure m cur path visited rest
        have hfuel2 :
            (bfsStep visited rest path ((lookup m cur).getD [])).2.length +
              countUnvisited (bfsUniverse m).dedup
                (bfsStep visited rest path ((lookup m cur).getD [])).1 ≤
              fuel := by
          simp only [List.length_cons] at hfuel
          omega
        have hrec := ih _ _ hfuel2 hstep
        have hunf : bfsAux m t (fuel + 1) visited ((cur, path) :: rest) =
            bfsAux m t fuel
              (bfsStep visited rest path ((lookup m cur).getD [])).1
              (bfsStep visited rest path ((lookup m cur).getD [])).2 := by
          conv_lhs => unfold bfsAux
          rw [if_neg hct]
        refine ⟨?_, ?_⟩
        · intro p hp
          rw [hunf] at hp
          exact hrec.1 p hp
        · intro hn q hq
          rw [hunf] at hn
          exact hrec.2 hn q hq

/-- C6 (counterexample): with the falsy start node `0` the search
returns `none` even though the one-node path `[0]` joins start node
and target, so the claim fails for some pair of nodes. -/
theorem bfs_falsy_start_incomplete :
    BreathFirstSearch zeroGraph jsFalsyInt 0 0 = none ∧
    IsBfsPath zeroGraph 0 0 [0] :=
  ⟨rfl, List.cons_ne_nil _ _, rfl, rfl, List.chain'_singleton _⟩

/-- C6 (amended): breadth-first search, started at any node the JS
truthiness test accepts, never enqueues a node twice (the enqueue
trace is duplicate-free), and it returns a path from start to target
with the minimum number of nodes over all such paths, or `none`
exactly when no path from start to target exists. -/
theorem bfs_correct (m : AdjList α) (falsy : α → Bool) (s t : α)
    (hs : falsy s = false) :
    (BreathFirstSearchTrace m falsy s t).2.Nodup ∧
    (∀ p, BreathFirstSearch m falsy s t = some p →
      IsBfsPath m s t p ∧ ∀ q, IsBfsPath m s t q → p.length ≤ q.length) ∧
    (BreathFirstSearch m falsy s t = none → ∀ q, ¬ IsBfsPath m s t q) := by
  have hcond : ¬ (falsy s = true) := by simp [hs]
  have hfuel : (1 : ℕ) + countUnvisited (bfsUniverse m).dedup [s] ≤
      bfsFuel m := by
    have h1 := countUnvisited_le (bfsUniverse m).dedup [s]
    have h2 : (bfsUniverse m).dedup.length ≤ (bfsUniverse m).length :=
      List.Sublist.length_le (List.dedup_sublist _)
    have h3 : bfsFuel m = 2 + (bfsUniverse m).length := rfl
    rw [h3]
    omega
  have hmain := bfsAux_correct m s t (bfsFuel m) [s] [(s, [s])]
    (by simp only [List.length_singleton]; exact hfuel) (bfsInv_init m s t)
  have htr : (bfsAuxTrace m t (bfsFuel m) [s] [(s, [s])] [s]).2.Nodup := by
    refine bfsAuxTrace_nodup m t (bfsFuel m) [s] [(s, [s])] [s] ?_ ?_
    · simp
    · intro x hx
      exact hx
  refine ⟨?_, ?_, ?_⟩
  · unfold BreathFirstSearchTrace
    rw [if_neg hcond]
    exact htr
  · intro p hp
    unfold BreathFirstSearch at hp
    rw [if_neg hcond] at hp
    exact hmain.1 p hp
  · intro hn q hq
    unfold BreathFirstSearch at hn
    rw [if_neg hcond] at hn
    exact hmain.2 hn q hq

/-- C6 witness: the amended theorem applied to the concrete graph
with the single undirected edge 0–1, truthy start node 1, target 1. -/
theorem bfs_correct_witness :
    jsFalsyInt 1 = false ∧
    ((BreathFirstSearchTrace zeroGraph jsFalsyInt 1 1).2.Nodup ∧
    (∀ p, BreathFirstSearch zeroGraph jsFalsyInt 1 1 = some p →
      IsBfsPath zeroGraph 1 1 p ∧
        ∀ q, IsBfsPath zeroGraph 1 1 q → p.length ≤ q.length) ∧
    (BreathFirstSearch zeroGraph jsFalsyInt 1 1 = none →
      ∀ q, ¬ IsBfsPath zeroGraph 1 1 q)) :=
  ⟨by decide, bfs_correct zeroGraph jsFalsyInt 1 1 (by decide)⟩

end Graph

/-! ## C5: the LinkedList size/tail invariant is broken by pop -/

/-- C5 (code bug demonstration): popping the single element of a
one-element list leaves the node reachable from `_head` while the
size counter drops to 0, violating the documented invariant; and a
`shift` that empties the list leaves `_tail` dangling (non-null). -/
theorem ll_pop_singleton_breaks_invariant :
    LL.pop (LL.insert LL.empty (1 : Int)) =
      (some 1, LL.mk [1] (some 0) 0) ∧
    ¬ LL.SizeTailInv (LL.pop (LL.insert LL.empty (1 : Int))).2 ∧
    (LL.shift (LL.insert LL.empty (1 : Int))).2.chain = [] ∧
    (LL.shift (LL.insert LL.empty (1 : Int))).2.tailIdx = some 0 := by
  refine ⟨by decide, ?_, by decide, by decide⟩
  intro hinv
  have heq : (LL.pop (LL.insert LL.empty (1 : Int))).2 =
      LL.mk [1] (some 0) 0 := by decide
  rw [heq] at hinv
  exact absurd hinv.1 (by decide)

/-! ## C4: Floyd cycle detection and `LinkedList.from` -/

namespace LL

theorem succ_mod (lam x : ℕ) (hl : 1 ≤ lam) :
    (x + 1) % lam = if x % lam + 1 = lam then 0 else x % lam + 1 := by
  have hx := Nat.div_add_mod x lam
  have hr : x % lam < lam := Nat.mod_lt _ (by omega)
  split_ifs with h
  · have h2 : x + 1 = lam * (x / lam + 1) := by
      rw [Nat.mul_succ]
      omega
    rw [h2]
    exact Nat.mul_mod_right _ _
  · have h2 : x + 1 = lam * (x / lam) + (x % lam + 1) := by omega
    rw [h2, Nat.mul_add_mod]
    exact Nat.mod_eq_of_lt (by omega)

theorem add_mod_small (lam r s : ℕ) (hr : r < lam) (hs : s < lam) :
    (r + s) % lam = if r + s < lam then r + s else r + s - lam := by
  split_ifs with h
  · exact Nat.mod_eq_of_lt h
  · rw [Nat.mod_eq_sub_mod (by omega)]
    exact Nat.mod_eq_of_lt (by omega)

theorem pos_small (mu lam : ℕ) {k : ℕ} (h : k < mu + lam) :
    posIdx mu lam k = k := by
  unfold posIdx
  rw [if_pos h]

theorem pos_big (mu lam : ℕ) (hl : 1 ≤ lam) {k : ℕ} (h : mu ≤ k) :
    posIdx mu lam k = mu + (k - mu) % lam := by
  unfold posIdx
  split_ifs with h2
  · rw [Nat.mod_eq_of_lt (by omega)]
    omega
  · rfl

theorem pos_ge (mu lam : ℕ) {k : ℕ} (h : mu ≤ k) :
    mu ≤ posIdx mu lam k := by
  unfold posIdx
  split_ifs with h2
  · omega
  · omega

theorem rhoNext_lt (mu lam : ℕ) {k : ℕ} (h : k + 1 < mu + lam) :
    rhoNext mu lam k = some (k + 1) := by
  unfold rhoNext
  rw [if_pos h]

theorem pos_step (mu lam : ℕ) (hl : 1 ≤ lam) (k : ℕ) :
    rhoNext mu lam (posIdx mu lam k) = some (posIdx mu lam (k + 1)) := by
  by_cases h1 : k + 1 < mu + lam
  · rw [pos_small mu lam (by omega), pos_small mu lam h1]
    unfold rhoNext
    rw [if_pos h1]
  · have hmk : mu ≤ k := by omega
    rw [pos_big mu lam hl hmk, pos_big mu lam hl (by omega)]
    unfold rhoNext
    have hr : (k - mu) % lam < lam := Nat.mod_lt _ (by omega)
    have hsucc : (k + 1 - mu) = (k - mu) + 1 := by omega
    rw [hsucc, succ_mod lam (k - mu) hl]
    split_ifs <;> first | omega | exact congrArg some (by omega)

theorem kst_pos (mu lam : ℕ) (hl : 1 ≤ lam) : 1 ≤ kst mu lam := by
  unfold kst
  split_ifs with h0
  · omega
  · have h1 : 1 ≤ (mu + lam - 1) / lam := by
      rw [Nat.le_div_iff_mul_le (by omega)]
      omega
    have h2 := Nat.mul_le_mul (Nat.le_refl lam) h1
    omega

theorem kst_ge_mu (mu lam : ℕ) (hl : 1 ≤ lam) : mu ≤ kst mu lam := by
  unfold kst
  split_ifs with h0
  · omega
  · have hq := Nat.div_add_mod (mu + lam - 1) lam
    have hr : (mu + lam - 1) % lam < lam := Nat.mod_lt _ (by omega)
    omega

theorem kst_le (mu lam : ℕ) (hl : 1 ≤ lam) : kst mu lam ≤ mu + lam := by
  unfold kst
  split_ifs with h0
  · omega
  · have hq := Nat.div_add_mod (mu + lam - 1) lam
    omega

theorem kst_mod (mu lam : ℕ) (hl : 1 ≤ lam) : kst mu lam % lam = 0 := by
  unfold kst
  split_ifs with h0
  · exact Nat.mod_self lam
  · exact Nat.mul_mod_right _ _

theorem kst_min (mu lam : ℕ) (hl : 1 ≤ lam) {i : ℕ} (h1 : 1 ≤ i)
    (hmu : mu ≤ i) (hmod : i % lam = 0) : kst mu lam ≤ i := by
  unfold kst
  split_ifs with h0
  · exact Nat.le_of_dvd (by omega) (Nat.dvd_of_mod_eq_zero hmod)
  · obtain ⟨mq, hmq⟩ : lam ∣ i := Nat.dvd_of_mod_eq_zero hmod
    have hdiv2 : (i + lam - 1) / lam = mq := by
      rw [hmq, show lam * mq + lam - 1 = lam * mq + (lam - 1) from by omega,
        Nat.mul_add_div (by omega), Nat.div_eq_of_lt (by omega)]
      omega
    have hdiv3 : (mu + lam - 1) / lam ≤ mq := by
      rw [← hdiv2]
      exact Nat.div_le_div_right (by omega)
    have h4 := Nat.mul_le_mul (Nat.le_refl lam) hdiv3
    omega

theorem meet_at_kst (mu lam : ℕ) (hl : 1 ≤ lam) :
    posIdx mu lam (kst mu lam) = posIdx mu lam (2 * kst mu lam) := by
  have hk1 := kst_pos mu lam hl
  have hkm := kst_ge_mu mu lam hl
  rw [pos_big mu lam hl hkm, pos_big mu lam hl (by omega)]
  have h3 : 2 * kst mu lam - mu = (kst mu lam - mu) + kst mu lam := by omega
  rw [h3, Nat.add_mod, kst_mod mu lam hl, Nat.add_zero,
    Nat.mod_mod_of_dvd _ dvd_rfl]

theorem no_meet (mu lam : ℕ) (hl : 1 ≤ lam) (i : ℕ) (h1 : 1 ≤ i)
    (h2 : i < kst mu lam) : posIdx mu lam i ≠ posIdx mu lam (2 * i) := by
  intro heq
  by_cases him : i < mu
  · rw [pos_small mu lam (by omega)] at heq
    by_cases h2i : 2 * i < mu + lam
    · rw [pos_small mu lam h2i] at heq
      omega
    · rw [pos_big mu lam hl (by omega)] at heq
      have hr : (2 * i - mu) % lam < lam := Nat.mod_lt _ (by omega)
      omega
  · push_neg at him
    rw [pos_big mu lam hl him, pos_big mu lam hl (by omega)] at heq
    have heq2 : (i - mu) % lam = (2 * i - mu) % lam := by omega
    have h3 : 2 * i - mu = (i - mu) + i := by omega
    rw [h3, Nat.add_mod] at heq2
    have hr : (i - mu) % lam < lam := Nat.mod_lt _ (by omega)
    have hs : i % lam < lam := Nat.mod_lt _ (by omega)
    rw [add_mod_small lam _ _ hr hs] at heq2
    split_ifs at heq2 with hcase
    · have hs0 : i % lam = 0 := by omega
      have := kst_min mu lam hl h1 him hs0
      omega
    · omega

theorem floyd1_noneFast (mu lam slow : ℕ) :
    ∀ fuel, floyd1 mu lam fuel slow none = none := by
  intro fuel
  cases fuel with
  | zero => rfl
  | succ f => rfl

theorem floyd1_step (mu lam fuel slow f f₁ : ℕ)
    (h : rhoNext mu lam f = some f₁) :
    floyd1 mu lam (fuel + 1) slow (some f) =
      if some ((rhoNext mu lam slow).getD 0) = rhoNext mu lam f₁ then
        some ((rhoNext mu lam slow).getD 0)
      else floyd1 mu lam fuel ((rhoNext mu lam slow).getD 0)
        (rhoNext mu lam f₁) := by
  conv_lhs => unfold floyd1
  rw [h]

theorem floyd1_stuck (mu lam fuel slow f : ℕ)
    (h : rhoNext mu lam f = none) :
    floyd1 mu lam (fuel + 1) slow (some f) = none := by
  conv_lhs => unfold floyd1
  rw [h]

theorem floyd1_loop (mu lam : ℕ) (hl : 1 ≤ lam) :
    ∀ (n i fuel : ℕ), 1 ≤ n → i + n = kst mu lam → n ≤ fuel →
      floyd1 mu lam fuel (posIdx mu lam i) (some (posIdx mu lam (2 * i))) =
        some (posIdx mu lam (kst mu lam)) := by
  intro n
  induction n with
  | zero =>
    intro i fuel h1 hik hfuel
    exact absurd h1 (by omega)
  | succ n ih =>
    intro i fuel h1 hik hfuel
    cases fuel with
    | zero => exact absurd hfuel (by omega)
    | succ f =>
      rw [floyd1_step mu lam f _ _ _ (pos_step mu lam hl (2 * i))]
      rw [pos_step mu lam hl i, pos_step mu lam hl (2 * i + 1)]
      simp only [Option.getD_some]
      by_cases hmeet : i + 1 = kst mu lam
      · rw [if_pos ?_]
        · rw [hmeet]
        · have h2 : 2 * i + 1 + 1 = 2 * (i + 1) := by omega
          rw [h2, hmeet]
          exact congrArg some (meet_at_kst mu lam hl)
      · rw [if_neg ?_]
        · have h2 : 2 * i + 1 + 1 = 2 * (i + 1) := by omega
          rw [h2]
          exact ih (i + 1) f (by omega) (by omega) (by omega)
        · intro hcon
          have h2 : 2 * i + 1 + 1 = 2 * (i + 1) := by omega
          rw [h2] at hcon
          exact no_meet mu lam hl (i + 1) (by omega) (by omega)
            (Option.some_inj.mp hcon)

theorem floyd1_acyclic (mu : ℕ) :
    ∀ (fuel i : ℕ), floyd1 mu 0 fuel i (some (2 * i)) = none := by
  intro fuel
  induction fuel with
  | zero => intro i; rfl
  | succ f ih =>
    intro i
    by_cases h1 : 2 * i + 1 < mu + 0
    · rw [floyd1_step mu 0 f i (2 * i) (2 * i + 1) (rhoNext_lt mu 0 h1)]
      have hslow : (rhoNext mu 0 i).getD 0 = i + 1 := by
        unfold rhoNext
        rw [if_pos (by omega)]
        rfl
      rw [hslow]
      by_cases h2 : 2 * i + 1 + 1 < mu + 0
      · rw [rhoNext_lt mu 0 h2]
        rw [if_neg (by intro hcon; have := Option.some_inj.mp hcon; omega)]
        rw [show 2 * i + 1 + 1 = 2 * (i + 1) from by omega]
        exact ih (i + 1)
      · have hnone : rhoNext mu 0 (2 * i + 1) = none := by
          unfold rhoNext
          rw [if_neg h2, if_pos rfl]
        rw [hnone]
        rw [if_neg (by intro hcon; exact Option.noConfusion hcon)]
        exact floyd1_noneFast mu 0 (i + 1) f
    · have hnone : rhoNext mu 0 (2 * i) = none := by
        unfold rhoNext
        rw [if_neg h1, if_pos rfl]
      exact floyd1_stuck mu 0 f i (2 * i) hnone

theorem floyd2_loop (mu lam : ℕ) (hl : 1 ≤ lam) :
    ∀ (n i fuel : ℕ), i + n = mu → n ≤ fuel →
      floyd2 mu lam fuel i (posIdx mu lam (kst mu lam + i)) = some mu := by
  intro n
  induction n with
  | zero =>
    intro i fuel hi hf
    have hkm := kst_ge_mu mu lam hl
    have hfast : posIdx mu lam (kst mu lam + i) = i := by
      rw [pos_big mu lam hl (by omega)]
      have h2 : kst mu lam + i - mu = kst mu lam := by omega
      rw [h2, kst_mod mu lam hl]
      omega
    cases fuel with
    | zero =>
      unfold floyd2
      rw [hfast, if_pos rfl]
      exact congrArg some (by omega)
    | succ f =>
      unfold floyd2
      rw [hfast, if_pos rfl]
      exact congrArg some (by omega)
  | succ n ih =>
    intro i fuel hi hf
    cases fuel with
    | zero => exact absurd hf (by omega)
    | succ f =>
      have hge : mu ≤ posIdx mu lam (kst mu lam + i) :=
        pos_ge mu lam (by have := kst_ge_mu mu lam hl; omega)
      conv_lhs => unfold floyd2
      rw [if_neg (by intro heq; omega)]
      have hslow : (rhoNext mu lam i).getD 0 = i + 1 := by
        unfold rhoNext
        rw [if_pos (by omega)]
        rfl
      have hfast2 : (rhoNext mu lam (posIdx mu lam (kst mu lam + i))).getD 0 =
          posIdx mu lam (kst mu lam + i + 1) := by
        rw [pos_step mu lam hl (kst mu lam + i)]
        rfl
      rw [hslow, hfast2, show kst mu lam + i + 1 = kst mu lam + (i + 1) from
        by omega]
      exact ih (i + 1) f (by omega) (by omega)

theorem cycleModel_cyclic (mu lam : ℕ) (hl : 1 ≤ lam) :
    cycleModel mu lam = some mu := by
  unfold cycleModel
  have h0 : posIdx mu lam 0 = 0 := pos_small mu lam (by omega)
  have h1 := floyd1_loop mu lam hl (kst mu lam) 0 (mu + lam + 1)
    (kst_pos mu lam hl) (by omega) (by have := kst_le mu lam hl; omega)
  rw [Nat.mul_zero, h0] at h1
  rw [h1]
  show floyd2 mu lam (mu + 1) 0 (posIdx mu lam (kst mu lam)) = some mu
  have h2 := floyd2_loop mu lam hl mu 0 (mu + 1) (by omega) (by omega)
  rw [Nat.add_zero] at h2
  exact h2

theorem cycleModel_acyclic (mu : ℕ) : cycleModel mu 0 = none := by
  unfold cycleModel
  have h1 := floyd1_acyclic mu (mu + 0 + 1) 0
  rw [Nat.mul_zero] at h1
  rw [h1]

theorem fromAux_step_some (mu lam : ℕ) (ce : Option ℕ) (fuel : ℕ)
    (vis : Bool) (tail count nxt : ℕ) (h : rhoNext mu lam tail = some nxt) :
    fromAux mu lam ce (fuel + 1) vis tail count =
      if ce = some nxt then
        if vis then (tail, count, true)
        else fromAux mu lam ce fuel true nxt (count + 1)
      else fromAux mu lam ce fuel vis nxt (count + 1) := by
  conv_lhs => unfold fromAux
  rw [h]

theorem fromAux_step_none (mu lam : ℕ) (ce : Option ℕ) (fuel : ℕ)
    (vis : Bool) (tail count : ℕ) (h : rhoNext mu lam tail = none) :
    fromAux mu lam ce (fuel + 1) vis tail count = (tail, count, true) := by
  conv_lhs => unfold fromAux
  rw [h]

theorem fromAux_toEntry (mu lam : ℕ) (hl : 1 ≤ lam) :
    ∀ (n p fuel count : ℕ), p + n + 1 = mu →
      fromAux mu lam (some mu) (fuel + n + 1) false p count =
        fromAux mu lam (some mu) fuel true mu (count + n + 1) := by
  intro n
  induction n with
  | zero =>
    intro p fuel count hp
    simp only [Nat.add_zero]
    rw [fromAux_step_some mu lam _ _ _ _ _ _ (rhoNext_lt mu lam (by omega))]
    have hp1 : p + 1 = mu := by omega
    rw [hp1, if_pos rfl, if_neg (by simp)]
  | succ n ih =>
    intro p fuel count hp
    rw [show fuel + (n + 1) + 1 = (fuel + n + 1) + 1 from by omega]
    rw [fromAux_step_some mu lam _ _ _ _ _ _ (rhoNext_lt mu lam (by omega))]
    rw [if_neg (by intro hcon; have := Option.some_inj.mp hcon; omega)]
    rw [ih (p + 1) fuel (count + 1) (by omega)]
    rw [show count + 1 + n + 1 = count + (n + 1) + 1 from by omega]

theorem fromAux_inCycle (mu lam : ℕ) (hl : 1 ≤ lam) :
    ∀ (n p fuel count : ℕ), mu ≤ p → p + n + 1 = mu + lam →
      fromAux mu lam (some mu) (fuel + n + 1) true p count =
        (mu + lam - 1, count + n, true) := by
  intro n
  induction n with
  | zero =>
    intro p fuel count hmp hp
    simp only [Nat.add_zero]
    have hstep : rhoNext mu lam p = some mu := by
      unfold rhoNext
      rw [if_neg (by omega), if_neg (by omega)]
    rw [fromAux_step_some mu lam _ _ _ _ _ _ hstep]
    rw [if_pos rfl, if_pos rfl]
    have hp2 : p = mu + lam - 1 := by omega
    rw [hp2]
  | succ n ih =>
    intro p fuel count hmp hp
    rw [show fuel + (n + 1) + 1 = (fuel + n + 1) + 1 from by omega]
    rw [fromAux_step_some mu lam _ _ _ _ _ _ (rhoNext_lt mu lam (by omega))]
    rw [if_neg (by intro hcon; have := Option.some_inj.mp hcon; omega)]
    rw [ih (p + 1) fuel (count + 1) (by omega) (by omega)]
    rw [show count + 1 + n = count + (n + 1) from by omega]

theorem fromAux_acyclic (mu : ℕ) :
    ∀ (n p fuel count : ℕ) (vis : Bool), p + n + 1 = mu →
      fromAux mu 0 none (fuel + n + 1) vis p count =
        (mu - 1, count + n, true) := by
  intro n
  induction n with
  | zero =>
    intro p fuel count vis hp
    simp only [Nat.add_zero]
    have hstep : rhoNext mu 0 p = none := by
      unfold rhoNext
      rw [if_neg (by omega), if_pos rfl]
    rw [fromAux_step_none mu 0 _ _ _ _ _ hstep]
    have hp2 : p = mu - 1 := by omega
    rw [hp2]
  | succ n ih =>
    intro p fuel count vis hp
    rw [show fuel + (n + 1) + 1 = (fuel + n + 1) + 1 from by omega]
    rw [fromAux_step_some mu 0 _ _ _ _ _ _ (rhoNext_lt mu 0 (by omega))]
    rw [if_neg (by intro hcon; exact Option.noConfusion hcon)]
    rw [ih (p + 1) fuel (count + 1) vis (by omega)]
    rw [show count + 1 + n = count + (n + 1) from by omega]

theorem fromModel_cyclic (mu lam : ℕ) (hm : 1 ≤ mu) (hl : 1 ≤ lam) :
    fromModel mu lam = (mu + lam - 1, mu + lam, true) := by
  unfold fromModel
  rw [cycleModel_cyclic mu lam hl]
  rw [show mu + 2 * lam + 2 = (2 * lam + 2) + (mu - 1) + 1 from by omega]
  rw [fromAux_toEntry mu lam hl (mu - 1) 0 (2 * lam + 2) 1 (by omega)]
  rw [show 2 * lam + 2 = (lam + 2) + (lam - 1) + 1 from by omega]
  rw [fromAux_inCycle mu lam hl (lam - 1) mu (lam + 2) (1 + (mu - 1) + 1)
    (by omega) (by omega)]
  rw [show 1 + (mu - 1) + 1 + (lam - 1) = mu + lam from by omega]

theorem fromModel_acyclic (mu : ℕ) (hm : 1 ≤ mu) :
    fromModel mu 0 = (mu - 1, mu, true) := by
  unfold fromModel
  rw [cycleModel_acyclic mu]
  rw [show mu + 2 * 0 + 2 = 2 + (mu - 1) + 1 from by omega]
  rw [fromAux_acyclic mu (mu - 1) 0 2 1 false (by omega)]
  rw [show (1 : ℕ) + (mu - 1) = mu - 1 + 1 from by omega]
  rw [show mu - 1 + 1 = mu from by omega]

/-- C4 (counterexample): when the root itself is the cycle entry
(`mu = 0`, `lam = 1`: a single self-looping node), `from` terminates
but severs only at the third arrival at the entry node and
double-counts it: the recorded size is 2 while the resulting list
holds the single node 0 (tail position 0), so the size does not equal
the number of elements of the resulting list. -/
theorem from_root_cycle_miscounts :
    cycleModel 0 1 = some 0 ∧ fromModel 0 1 = (0, 2, true) ∧
    (fromModel 0 1).2.1 ≠ (fromModel 0 1).1 + 1 := by decide

/-- C4 (amended): for every rho-shaped chain whose cycle entry is not
the root itself (`mu ≥ 1` tail nodes before the entry) and any cycle
length `lam`, `LinkedList.from` terminates: in the acyclic case
(`lam = 0`) `cycle` returns null, the walk ends at the last node
`mu - 1` with size `mu`, and in the cyclic case (`lam ≥ 1`) `cycle`
returns the entry node `mu`, the chain is severed at the second visit
to the entry, the last element is node `mu + lam - 1` (the node
immediately preceding that second visit), and the recorded size
`mu + lam` equals the number of elements `0 .. mu + lam - 1` of the
resulting list. -/
theorem from_model_correct (mu lam : ℕ) (hm : 1 ≤ mu) :
    (lam = 0 → cycleModel mu lam = none ∧
      fromModel mu lam = (mu - 1, mu, true)) ∧
    (1 ≤ lam → cycleModel mu lam = some mu ∧
      fromModel mu lam = (mu + lam - 1, mu + lam, true)) := by
  constructor
  · intro h0
    subst h0
    exact ⟨cycleModel_acyclic mu, fromModel_acyclic mu hm⟩
  · intro hl
    exact ⟨cycleModel_cyclic mu lam hl, fromModel_cyclic mu lam hm hl⟩

/-- C4 witness: the amended theorem at the concrete chain with one
node before the entry of a one-node cycle (`mu = 1`, `lam = 1`). -/
theorem from_model_correct_witness :
    (1 : ℕ) ≤ 1 ∧ (cycleModel 1 1 = some 1 ∧ fromModel 1 1 = (1, 2, true)) :=
  ⟨by decide, (from_model_correct 1 1 (by decide)).2 (by decide)⟩

end LL

end Spec2Proof
